import Mathlib

/-!
Verification development for the wolong launcher core: the ARC
(adaptive replacement cache) in src/utils/arc.ts, the match scorer in
src/windows/LauncherApp.tsx and the phonetic expansion in
src/utils/pinyin.ts.

JavaScript Map objects are modelled as insertion-ordered association
lists; JavaScript numbers that can go negative are modelled as Int.
-/

namespace Wolong

abbrev Key := String

/-- CacheItem from src/utils/arc.ts. -/
structure CacheItem (V : Type) where
  key : Key
  value : V
  lastAccessed : Int
  accessCount : Int
deriving Repr, DecidableEq

abbrev Entry (V : Type) := Key × CacheItem V

/-- Model of a JavaScript Map of CacheItems: entries in insertion order. -/
abbrev JsMap (V : Type) := List (Entry V)

/-- Keys of the map in order. -/
def jsKeys {V : Type} (m : JsMap V) : List Key := m.map (·.1)

/-- Model of Map.has. -/
def jsHas {V : Type} (m : JsMap V) (k : Key) : Bool := m.any (fun e => e.1 == k)

/-- Model of Map.get. -/
def jsGet {V : Type} (m : JsMap V) (k : Key) : Option (CacheItem V) :=
  (m.find? (fun e => e.1 == k)).map (·.2)

/-- Model of Map.set: update in place when the key is present, append otherwise. -/
def jsSet {V : Type} (m : JsMap V) (k : Key) (it : CacheItem V) : JsMap V :=
  if jsHas m k then m.map (fun e => if e.1 == k then (k, it) else e) else m ++ [(k, it)]

/-- Model of Map.delete. -/
def jsDelete {V : Type} (m : JsMap V) (k : Key) : JsMap V :=
  m.filter (fun e => e.1 != k)

/-- Model of map.keys().next().value: the first key in insertion order. -/
def jsFirstKey {V : Type} (m : JsMap V) : Option Key := m.head?.map (·.1)

/-- ARC state: the four lists, the adaptation parameter p and the capacity. -/
structure ARCState (V : Type) where
  t1 : JsMap V
  t2 : JsMap V
  b1 : JsMap V
  b2 : JsMap V
  p : Int
  capacity : Int
deriving Repr, DecidableEq

/-- Model of the ARC constructor. -/
def mkARC {V : Type} (capacity : Int) : ARCState V :=
  ⟨[], [], [], [], 0, capacity⟩

/-- Eviction block of the source that moves the least recently used T1
entry into B1 (the body of the first branch of ARC.replace, repeated in
the miss case of ARC.access).  The source guards the eviction with a
JavaScript truthiness check on the first key, which fails for the
empty-string key. -/
def evictT1HeadToB1 {V : Type} (σ : ARCState V) : ARCState V :=
  match jsFirstKey σ.t1 with
  | some k =>
    if k = "" then σ else
      match jsGet σ.t1 k with
      | some evicted => { σ with t1 := jsDelete σ.t1 k, b1 := jsSet σ.b1 k evicted }
      | none => σ
  | none => σ

/-- Eviction block of the source that moves the least recently used T2
entry into B2 (the body of the second branch of ARC.replace). -/
def evictT2HeadToB2 {V : Type} (σ : ARCState V) : ARCState V :=
  match jsFirstKey σ.t2 with
  | some k =>
    if k = "" then σ else
      match jsGet σ.t2 k with
      | some evicted => { σ with t2 := jsDelete σ.t2 k, b2 := jsSet σ.b2 k evicted }
      | none => σ
  | none => σ

/-- Discard block of the miss case that drops the oldest B1 ghost. -/
def discardB1Head {V : Type} (σ : ARCState V) : ARCState V :=
  match jsFirstKey σ.b1 with
  | some k => if k = "" then σ else { σ with b1 := jsDelete σ.b1 k }
  | none => σ

/-- Discard block of the miss case that drops the oldest B2 ghost. -/
def discardB2Head {V : Type} (σ : ARCState V) : ARCState V :=
  match jsFirstKey σ.b2 with
  | some k => if k = "" then σ else { σ with b2 := jsDelete σ.b2 k }
  | none => σ

/-- Model of ARC.replace from src/utils/arc.ts lines 157 to 178, with the
exact condition of the source, including the redundant containsInT2
disjunct. -/
def replace {V : Type} (σ : ARCState V) (containsInT2 : Bool) : ARCState V :=
  if 1 ≤ σ.t1.length ∧
      ((containsInT2 = true ∧ σ.p < (σ.t1.length : Int)) ∨ σ.p < (σ.t1.length : Int)) then
    evictT1HeadToB1 σ
  else
    evictT2HeadToB2 σ

/-- Update of a hit item: increment accessCount, refresh lastAccessed. -/
def touch {V : Type} (item : CacheItem V) (now : Int) : CacheItem V :=
  { item with accessCount := item.accessCount + 1, lastAccessed := now }

/-- Case 1 of ARC.access: hit in T1, promote the entry to T2. -/
def accessT1Hit {V : Type} (σ : ARCState V) (key : Key) (now : Int) : ARCState V :=
  match jsGet σ.t1 key with
  | some item =>
    replace { σ with t1 := jsDelete σ.t1 key, t2 := jsSet σ.t2 key (touch item now) } false
  | none => σ

/-- Hit in T2: refresh the entry to the most recently used position. -/
def accessT2Hit {V : Type} (σ : ARCState V) (key : Key) (now : Int) : ARCState V :=
  match jsGet σ.t2 key with
  | some item =>
    replace { σ with t2 := jsSet (jsDelete σ.t2 key) key (touch item now) } true
  | none => σ

/-- Case 2 of ARC.access: hit in the ghost list B1. -/
def accessB1Hit {V : Type} (σ : ARCState V) (key : Key) (value : V) (now : Int) : ARCState V :=
  let delta : Int := min (σ.b2.length : Int) 1
  let σa := { σ with p := min σ.capacity (σ.p + delta) }
  let σb := replace σa true
  let item : CacheItem V := ⟨key, value, now, 1⟩
  { σb with b1 := jsDelete σb.b1 key, t2 := jsSet σb.t2 key item }

/-- Case 3 of ARC.access: hit in the ghost list B2. -/
def accessB2Hit {V : Type} (σ : ARCState V) (key : Key) (value : V) (now : Int) : ARCState V :=
  let delta : Int := min (σ.b1.length : Int) 1
  let σa := { σ with p := max 0 (σ.p - delta) }
  let σb := replace σa false
  let item : CacheItem V := ⟨key, value, now, 1⟩
  { σb with b2 := jsDelete σb.b2 key, t2 := jsSet σb.t2 key item }

/-- Capacity management of the miss case of ARC.access (everything the
source does before inserting the new item into T1). -/
def missMgmt {V : Type} (σ : ARCState V) : ARCState V :=
  if (σ.t1.length : Int) + σ.b1.length = σ.capacity then
    if (σ.t1.length : Int) < σ.capacity then
      replace (discardB1Head σ) false
    else
      evictT1HeadToB1 σ
  else if (σ.t1.length : Int) + σ.b1.length < σ.capacity ∧
      σ.capacity ≤ (σ.t1.length : Int) + σ.b1.length + (σ.t2.length + σ.b2.length) then
    replace
      (if (σ.t1.length : Int) + σ.b1.length + (σ.t2.length + σ.b2.length) = 2 * σ.capacity
        then discardB2Head σ else σ) false
  else σ

/-- Case 4 of ARC.access: cache miss — capacity management, then the
fresh item goes to the most recently used end of T1. -/
def accessMiss {V : Type} (σ : ARCState V) (key : Key) (value : V) (now : Int) : ARCState V :=
  { missMgmt σ with t1 := jsSet (missMgmt σ).t1 key ⟨key, value, now, 1⟩ }

/-- Model of ARC.access from src/utils/arc.ts lines 45 to 152.  The wall
clock Date.now() is passed in as the parameter now. -/
def access {V : Type} (σ : ARCState V) (key : Key) (value : V) (now : Int) : ARCState V :=
  if jsHas σ.t1 key then accessT1Hit σ key now
  else if jsHas σ.t2 key then accessT2Hit σ key now
  else if jsHas σ.b1 key then accessB1Hit σ key value now
  else if jsHas σ.b2 key then accessB2Hit σ key value now
  else accessMiss σ key value now

/-- Model of ARC.getRecommended: all items of T2 in map order. -/
def getRecommended {V : Type} (σ : ARCState V) : List (CacheItem V) :=
  σ.t2.map (·.2)

/-- Run a sequence of access calls; the clock advances by one per call,
so the timestamps seen by successive calls are strictly increasing. -/
def runFrom {V : Type} (σ : ARCState V) (seq : List (Key × V)) (now : Int) : ARCState V :=
  match seq with
  | [] => σ
  | (k, v) :: rest => runFrom (access σ k v now) rest (now + 1)

/-- Persisted shape produced by ARC.export and consumed by ARC.import. -/
structure ARCData (V : Type) where
  t1 : List (Entry V)
  t2 : List (Entry V)
  b1 : List (Entry V)
  b2 : List (Entry V)
  p : Int
  capacity : Int
deriving Repr, DecidableEq

/-- Model of ARC.export. -/
def exportState {V : Type} (σ : ARCState V) : ARCData V :=
  ⟨σ.t1, σ.t2, σ.b1, σ.b2, σ.p, σ.capacity⟩

/-- Model of the JavaScript Map constructor applied to a list of entries. -/
def jsMapOfList {V : Type} (l : List (Entry V)) : JsMap V :=
  l.foldl (fun m e => jsSet m e.1 e.2) []

/-- Model of ARC.import: every field of the receiver is overwritten. -/
def importState {V : Type} (σ : ARCState V) (d : ARCData V) : ARCState V :=
  { σ with
    t1 := jsMapOfList d.t1
    t2 := jsMapOfList d.t2
    b1 := jsMapOfList d.b1
    b2 := jsMapOfList d.b2
    p := d.p
    capacity := d.capacity }

/-- Model of loadARC from src/windows/LauncherApp.tsx lines 137 to 150:
a stored record, when one parses, is imported into a fresh cache of
capacity MAX_RECOMMENDED = 5; otherwise a fresh cache is returned. -/
def loadARC {V : Type} (stored : Option (ARCData V)) : ARCState V :=
  match stored with
  | none => mkARC 5
  | some d => importState (mkARC 5) d

/-! Invariant machinery for the ARC.  keyCount counts the entries of a
map that carry a given key; the main invariant says every key occurs at
most once across the four lists, all stored timestamps are in the past,
and T2 is sorted by last access time. -/

/-- Number of entries of the map carrying key a. -/
def keyCount {V : Type} (m : JsMap V) (a : Key) : Nat :=
  m.countP (fun e => e.1 == a)

/-- Total number of entries carrying key a across the four lists. -/
def keyCount4 {V : Type} (σ : ARCState V) (a : Key) : Nat :=
  keyCount σ.t1 a + keyCount σ.t2 a + keyCount σ.b1 a + keyCount σ.b2 a

/-- Key uniqueness across (and within) the four lists. -/
def KeysOk {V : Type} (σ : ARCState V) : Prop := ∀ a, keyCount4 σ a ≤ 1

/-- All entries of the state, in list order. -/
def itemsOf {V : Type} (σ : ARCState V) : List (Entry V) :=
  σ.t1 ++ σ.t2 ++ σ.b1 ++ σ.b2

/-- Every stored timestamp lies strictly before n. -/
def TimeOk {V : Type} (n : Int) (σ : ARCState V) : Prop :=
  ∀ e ∈ itemsOf σ, e.2.lastAccessed < n

/-- T2 is strictly sorted by last access time (most recent last). -/
def T2Sorted {V : Type} (σ : ARCState V) : Prop :=
  σ.t2.Pairwise (fun x y => x.2.lastAccessed < y.2.lastAccessed)

/-- The combined reachable-state invariant at clock n. -/
def Inv {V : Type} (n : Int) (σ : ARCState V) : Prop :=
  KeysOk σ ∧ TimeOk n σ ∧ T2Sorted σ

lemma keyCount_append {V : Type} (m₁ m₂ : JsMap V) (a : Key) :
    keyCount (m₁ ++ m₂) a = keyCount m₁ a + keyCount m₂ a :=
  List.countP_append _ _ _

lemma keyCount_delete {V : Type} (m : JsMap V) (k a : Key) :
    keyCount (jsDelete m k) a = if a = k then 0 else keyCount m a := by
  unfold keyCount jsDelete
  by_cases hak : a = k
  · subst hak
    rw [if_pos rfl, List.countP_eq_zero]
    intro e he
    have := (List.mem_filter.mp he).2
    simp only [bne_iff_ne, ne_eq] at this
    simp [this]
  · rw [if_neg hak, List.countP_filter, List.countP_congr]
    intro e _
    constructor
    · intro h
      exact (Bool.and_eq_true _ _).mp h |>.1
    · intro h
      refine (Bool.and_eq_true _ _).mpr ⟨h, ?_⟩
      have : e.1 = a := by simpa using h
      simp [bne_iff_ne, this, Ne.symm hak]
      exact fun hc => hak (hc ▸ rfl)

lemma jsHas_iff_keyCount {V : Type} (m : JsMap V) (k : Key) :
    jsHas m k = true ↔ 1 ≤ keyCount m k := by
  unfold jsHas keyCount
  rw [List.any_eq_true, Nat.one_le_iff_ne_zero, ← Nat.pos_iff_ne_zero, List.countP_pos_iff]

lemma jsHas_false_keyCount {V : Type} (m : JsMap V) (k : Key) :
    jsHas m k = false ↔ keyCount m k = 0 := by
  constructor
  · intro h
    by_contra hc
    have : 1 ≤ keyCount m k := Nat.one_le_iff_ne_zero.mpr hc
    rw [← jsHas_iff_keyCount] at this
    rw [h] at this
    exact Bool.false_ne_true this
  · intro h
    by_contra hc
    have : jsHas m k = true := by
      cases hb : jsHas m k
      · exact absurd hb hc
      · rfl
    rw [jsHas_iff_keyCount] at this
    omega

lemma keyCount_set_of_has {V : Type} (m : JsMap V) (k : Key) (it : CacheItem V)
    (h : jsHas m k = true) (a : Key) : keyCount (jsSet m k it) a = keyCount m a := by
  unfold jsSet
  rw [if_pos h]
  unfold keyCount
  rw [List.countP_map, List.countP_congr]
  intro e _
  simp only [Function.comp]
  by_cases hek : e.1 == k
  · have hek1 : e.1 = k := by simpa using hek
    rw [if_pos hek]
    simp [hek1]
  · rw [if_neg (by simpa using hek)]

lemma keyCount_set_of_not_has {V : Type} (m : JsMap V) (k : Key) (it : CacheItem V)
    (h : jsHas m k = false) (a : Key) :
    keyCount (jsSet m k it) a = keyCount m a + (if a = k then 1 else 0) := by
  unfold jsSet
  rw [if_neg (by simp [h])]
  rw [keyCount_append]
  congr 1
  unfold keyCount
  by_cases hak : a = k
  · subst hak
    simp [List.countP_cons]
  · simp [List.countP_cons, hak, Ne.symm hak]

lemma keyCount_set_le {V : Type} (m : JsMap V) (k : Key) (it : CacheItem V) (a : Key) :
    keyCount (jsSet m k it) a ≤ keyCount m a + (if a = k then 1 else 0) := by
  cases h : jsHas m k
  · rw [keyCount_set_of_not_has m k it h a]
  · rw [keyCount_set_of_has m k it h a]
    omega

lemma keyCount_set_ne {V : Type} (m : JsMap V) (k : Key) (it : CacheItem V) (a : Key)
    (hak : a ≠ k) : keyCount (jsSet m k it) a = keyCount m a := by
  cases h : jsHas m k
  · rw [keyCount_set_of_not_has m k it h a, if_neg hak]
    omega
  · exact keyCount_set_of_has m k it h a

lemma keyCount_set_self_ub {V : Type} (m : JsMap V) (k : Key) (it : CacheItem V) :
    keyCount (jsSet m k it) k ≤ max 1 (keyCount m k) := by
  cases h : jsHas m k
  · rw [keyCount_set_of_not_has m k it h k, if_pos rfl]
    have := (jsHas_false_keyCount m k).mp h
    omega
  · rw [keyCount_set_of_has m k it h k]
    omega

lemma jsFirstKey_keyCount {V : Type} (m : JsMap V) (k : Key)
    (h : jsFirstKey m = some k) : 1 ≤ keyCount m k := by
  unfold jsFirstKey at h
  match m, h with
  | e :: rest, h =>
    have : e.1 = k := by simpa using h
    unfold keyCount
    simp [List.countP_cons, this]

lemma mem_jsSet {V : Type} {m : JsMap V} {k : Key} {it : CacheItem V} {e : Entry V}
    (h : e ∈ jsSet m k it) : e ∈ m ∨ e = (k, it) := by
  unfold jsSet at h
  by_cases hh : jsHas m k
  · rw [if_pos hh] at h
    obtain ⟨x, hx, hfx⟩ := List.mem_map.mp h
    by_cases hxk : x.1 == k
    · right
      rw [if_pos hxk] at hfx
      exact hfx.symm
    · left
      rw [if_neg hxk] at hfx
      exact hfx ▸ hx
  · rw [if_neg hh] at h
    rcases List.mem_append.mp h with h1 | h2
    · exact Or.inl h1
    · right
      simpa using h2

lemma mem_jsDelete {V : Type} {m : JsMap V} {k : Key} {e : Entry V}
    (h : e ∈ jsDelete m k) : e ∈ m :=
  List.mem_of_mem_filter h

lemma jsGet_mem {V : Type} {m : JsMap V} {k : Key} {it : CacheItem V}
    (h : jsGet m k = some it) : (k, it) ∈ m := by
  unfold jsGet at h
  cases hf : m.find? (fun e => e.1 == k) with
  | none => simp [hf] at h
  | some e =>
    have he : e ∈ m := List.mem_of_find?_eq_some hf
    have hk : e.1 = k := by simpa using List.find?_some hf
    have hit : e.2 = it := by
      rw [hf] at h
      simpa using h
    have : (k, it) = e := by
      cases e
      simp only at hk hit
      rw [hk, hit]
    rw [this]
    exact he

lemma jsGet_isSome_of_has {V : Type} {m : JsMap V} {k : Key}
    (h : jsHas m k = true) : ∃ it, jsGet m k = some it := by
  unfold jsHas at h
  unfold jsGet
  rw [List.any_eq_true] at h
  have hs : (m.find? (fun e => e.1 == k)).isSome = true := List.find?_isSome.mpr h
  cases hf : m.find? (fun e => e.1 == k) with
  | none => rw [hf] at hs; simp at hs
  | some e => exact ⟨e.2, rfl⟩

lemma jsDelete_pairwise {V : Type} {m : JsMap V} {k : Key}
    {R : Entry V → Entry V → Prop} (h : m.Pairwise R) : (jsDelete m k).Pairwise R :=
  List.Pairwise.sublist (List.filter_sublist m) h

lemma jsHas_delete_self {V : Type} (m : JsMap V) (k : Key) :
    jsHas (jsDelete m k) k = false := by
  rw [jsHas_false_keyCount, keyCount_delete, if_pos rfl]

/-- Facts preserved by every capacity-management helper: key counts do
not grow (keys can only move from the live lists to the ghost lists),
items are never invented, and sortedness of T2 is preserved. -/
def StepOk {V : Type} (σ τ : ARCState V) : Prop :=
  (∀ a, keyCount4 τ a ≤ keyCount4 σ a) ∧
  (∀ a, keyCount τ.t1 a ≤ keyCount σ.t1 a) ∧
  (∀ a, keyCount τ.t2 a ≤ keyCount σ.t2 a) ∧
  (∀ a, keyCount τ.b1 a ≤ keyCount σ.b1 a + keyCount σ.t1 a) ∧
  (∀ a, keyCount τ.b2 a ≤ keyCount σ.b2 a + keyCount σ.t2 a) ∧
  (∀ e, e ∈ itemsOf τ → e ∈ itemsOf σ) ∧
  (T2Sorted σ → T2Sorted τ)

lemma stepOk_refl {V : Type} (σ : ARCState V) : StepOk σ σ := by
  refine ⟨fun a => le_refl _, fun a => le_refl _, fun a => le_refl _,
    fun a => Nat.le_add_right _ _, fun a => Nat.le_add_right _ _, fun e he => he, id⟩

lemma stepOk_evictT1 {V : Type} (σ : ARCState V) : StepOk σ (evictT1HeadToB1 σ) := by
  unfold evictT1HeadToB1
  cases hf : jsFirstKey σ.t1 with
  | none => exact stepOk_refl σ
  | some k =>
    dsimp only
    by_cases hk : k = ""
    · rw [if_pos hk]; exact stepOk_refl σ
    · rw [if_neg hk]
      cases hg : jsGet σ.t1 k with
      | none => exact stepOk_refl σ
      | some ev =>
        have h1 : 1 ≤ keyCount σ.t1 k := jsFirstKey_keyCount σ.t1 k hf
        refine ⟨?_, ?_, fun a => le_refl _, ?_, fun a => Nat.le_add_right _ _, ?_, fun h => h⟩
        · intro a
          have hd := keyCount_delete σ.t1 k a
          have hs := keyCount_set_le σ.b1 k ev a
          unfold keyCount4
          dsimp only
          by_cases hak : a = k
          · rw [hd, if_pos hak]
            rw [if_pos hak] at hs
            subst hak
            omega
          · rw [hd, if_neg hak]
            rw [if_neg hak] at hs
            omega
        · intro a
          have hd := keyCount_delete σ.t1 k a
          dsimp only
          rw [hd]
          by_cases hak : a = k
          · rw [if_pos hak]; omega
          · rw [if_neg hak]
        · intro a
          have hs := keyCount_set_le σ.b1 k ev a
          dsimp only
          by_cases hak : a = k
          · rw [if_pos hak] at hs
            subst hak
            omega
          · rw [if_neg hak] at hs
            omega
        · intro e he
          have hmem : (k, ev) ∈ σ.t1 := jsGet_mem hg
          simp only [itemsOf, List.mem_append] at he ⊢
          rcases he with ((h | h) | h) | h
          · exact Or.inl (Or.inl (Or.inl (mem_jsDelete h)))
          · exact Or.inl (Or.inl (Or.inr h))
          · rcases mem_jsSet h with h | h
            · exact Or.inl (Or.inr h)
            · exact Or.inl (Or.inl (Or.inl (h ▸ hmem)))
          · exact Or.inr h

lemma stepOk_evictT2 {V : Type} (σ : ARCState V) : StepOk σ (evictT2HeadToB2 σ) := by
  unfold evictT2HeadToB2
  cases hf : jsFirstKey σ.t2 with
  | none => exact stepOk_refl σ
  | some k =>
    dsimp only
    by_cases hk : k = ""
    · rw [if_pos hk]; exact stepOk_refl σ
    · rw [if_neg hk]
      cases hg : jsGet σ.t2 k with
      | none => exact stepOk_refl σ
      | some ev =>
        have h1 : 1 ≤ keyCount σ.t2 k := jsFirstKey_keyCount σ.t2 k hf
        refine ⟨?_, fun a => le_refl _, ?_, fun a => Nat.le_add_right _ _, ?_, ?_, ?_⟩
        · intro a
          have hd := keyCount_delete σ.t2 k a
          have hs := keyCount_set_le σ.b2 k ev a
          unfold keyCount4
          dsimp only
          by_cases hak : a = k
          · rw [hd, if_pos hak]
            rw [if_pos hak] at hs
            subst hak
            omega
          · rw [hd, if_neg hak]
            rw [if_neg hak] at hs
            omega
        · intro a
          have hd := keyCount_delete σ.t2 k a
          dsimp only
          rw [hd]
          by_cases hak : a = k
          · rw [if_pos hak]; omega
          · rw [if_neg hak]
        · intro a
          have hs := keyCount_set_le σ.b2 k ev a
          dsimp only
          by_cases hak : a = k
          · rw [if_pos hak] at hs
            subst hak
            omega
          · rw [if_neg hak] at hs
            omega
        · intro e he
          have hmem : (k, ev) ∈ σ.t2 := jsGet_mem hg
          simp only [itemsOf, List.mem_append] at he ⊢
          rcases he with ((h | h) | h) | h
          · exact Or.inl (Or.inl (Or.inl h))
          · exact Or.inl (Or.inl (Or.inr (mem_jsDelete h)))
          · exact Or.inl (Or.inr h)
          · rcases mem_jsSet h with h | h
            · exact Or.inr h
            · exact Or.inl (Or.inl (Or.inr (h ▸ hmem)))
        · intro hs
          exact jsDelete_pairwise hs

lemma discardB1_facts {V : Type} (σ : ARCState V) :
    (discardB1Head σ).t1 = σ.t1 ∧ (discardB1Head σ).t2 = σ.t2 ∧
    (discardB1Head σ).b2 = σ.b2 ∧
    (∀ a, keyCount (discardB1Head σ).b1 a ≤ keyCount σ.b1 a) ∧
    StepOk σ (discardB1Head σ) := by
  unfold discardB1Head
  cases hf : jsFirstKey σ.b1 with
  | none => exact ⟨rfl, rfl, rfl, fun a => le_refl _, stepOk_refl σ⟩
  | some k =>
    dsimp only
    by_cases hk : k = ""
    · rw [if_pos hk]; exact ⟨rfl, rfl, rfl, fun a => le_refl _, stepOk_refl σ⟩
    · rw [if_neg hk]
      have hb : ∀ a, keyCount (jsDelete σ.b1 k) a ≤ keyCount σ.b1 a := by
        intro a
        rw [keyCount_delete]
        by_cases hak : a = k
        · rw [if_pos hak]; omega
        · rw [if_neg hak]
      refine ⟨rfl, rfl, rfl, hb, ?_, fun a => le_refl _, fun a => le_refl _, ?_, ?_, ?_, fun h => h⟩
      · intro a
        unfold keyCount4
        dsimp only
        have := hb a
        omega
      · intro a
        dsimp only
        have := hb a
        omega
      · intro a
        dsimp only
        exact Nat.le_add_right _ _
      · intro e he
        simp only [itemsOf, List.mem_append] at he ⊢
        rcases he with ((h | h) | h) | h
        · exact Or.inl (Or.inl (Or.inl h))
        · exact Or.inl (Or.inl (Or.inr h))
        · exact Or.inl (Or.inr (mem_jsDelete h))
        · exact Or.inr h

lemma discardB2_facts {V : Type} (σ : ARCState V) :
    (discardB2Head σ).t1 = σ.t1 ∧ (discardB2Head σ).t2 = σ.t2 ∧
    (discardB2Head σ).b1 = σ.b1 ∧
    (∀ a, keyCount (discardB2Head σ).b2 a ≤ keyCount σ.b2 a) ∧
    StepOk σ (discardB2Head σ) := by
  unfold discardB2Head
  cases hf : jsFirstKey σ.b2 with
  | none => exact ⟨rfl, rfl, rfl, fun a => le_refl _, stepOk_refl σ⟩
  | some k =>
    dsimp only
    by_cases hk : k = ""
    · rw [if_pos hk]; exact ⟨rfl, rfl, rfl, fun a => le_refl _, stepOk_refl σ⟩
    · rw [if_neg hk]
      have hb : ∀ a, keyCount (jsDelete σ.b2 k) a ≤ keyCount σ.b2 a := by
        intro a
        rw [keyCount_delete]
        by_cases hak : a = k
        · rw [if_pos hak]; omega
        · rw [if_neg hak]
      refine ⟨rfl, rfl, rfl, hb, ?_, fun a => le_refl _, fun a => le_refl _, ?_, ?_, ?_, fun h => h⟩
      · intro a
        unfold keyCount4
        dsimp only
        have := hb a
        omega
      · intro a
        dsimp only
        exact Nat.le_add_right _ _
      · intro a
        dsimp only
        have := hb a
        omega
      · intro e he
        simp only [itemsOf, List.mem_append] at he ⊢
        rcases he with ((h | h) | h) | h
        · exact Or.inl (Or.inl (Or.inl h))
        · exact Or.inl (Or.inl (Or.inr h))
        · exact Or.inl (Or.inr h)
        · exact Or.inr (mem_jsDelete h)

lemma stepOk_replace {V : Type} (σ : ARCState V) (b : Bool) : StepOk σ (replace σ b) := by
  unfold replace
  split
  · exact stepOk_evictT1 σ
  · exact stepOk_evictT2 σ

/-- Composition of a step that only shrinks the ghost lists with any
following step. -/
lemma stepOk_comp {V : Type} {σ τ ρ : ARCState V} (h1 : StepOk σ τ)
    (e1 : τ.t1 = σ.t1) (e2 : τ.t2 = σ.t2)
    (hb1 : ∀ a, keyCount τ.b1 a ≤ keyCount σ.b1 a)
    (hb2 : ∀ a, keyCount τ.b2 a ≤ keyCount σ.b2 a)
    (h2 : StepOk τ ρ) : StepOk σ ρ := by
  obtain ⟨k4, kt1, kt2, kb1, kb2, it, so⟩ := h1
  obtain ⟨k4b, kt1b, kt2b, kb1b, kb2b, itb, sob⟩ := h2
  refine ⟨fun a => le_trans (k4b a) (k4 a), ?_, ?_, ?_, ?_,
    fun e he => it e (itb e he), fun h => sob (so h)⟩
  · intro a
    have := kt1b a
    rw [e1] at this
    exact this
  · intro a
    have := kt2b a
    rw [e2] at this
    exact this
  · intro a
    have h3 := kb1b a
    rw [e1] at h3
    exact le_trans h3 (Nat.add_le_add_right (hb1 a) _)
  · intro a
    have h3 := kb2b a
    rw [e2] at h3
    exact le_trans h3 (Nat.add_le_add_right (hb2 a) _)

lemma jsSet_append {V : Type} (m : JsMap V) (k : Key) (it : CacheItem V)
    (h : jsHas m k = false) : jsSet m k it = m ++ [(k, it)] := by
  unfold jsSet
  rw [if_neg]
  simp [h]

lemma keysOk_of_le {V : Type} {σ τ : ARCState V}
    (h : ∀ a, keyCount4 τ a ≤ keyCount4 σ a) (hk : KeysOk σ) : KeysOk τ :=
  fun a => le_trans (h a) (hk a)

lemma timeOk_of_items {V : Type} {n : Int} {σ τ : ARCState V}
    (h : ∀ e ∈ itemsOf τ, e ∈ itemsOf σ) (ht : TimeOk n σ) : TimeOk n τ :=
  fun e he => ht e (h e he)

lemma timeOk_mono {V : Type} {n m : Int} {σ : ARCState V}
    (h : n ≤ m) (ht : TimeOk n σ) : TimeOk m σ :=
  fun e he => lt_of_lt_of_le (ht e he) h

lemma sorted_append_one {V : Type} {R : Entry V → Entry V → Prop}
    {l : List (Entry V)} {y : Entry V}
    (h : l.Pairwise R) (hall : ∀ x ∈ l, R x y) : (l ++ [y]).Pairwise R := by
  rw [List.pairwise_append]
  refine ⟨h, List.pairwise_singleton _ _, ?_⟩
  intro a ha b hb
  have : b = y := by simpa using hb
  rw [this]
  exact hall a ha

lemma inv_accessT1Hit {V : Type} {n : Int} {σ : ARCState V} (h : Inv n σ)
    (key : Key) (hk : jsHas σ.t1 key = true) : Inv (n + 1) (accessT1Hit σ key n) := by
  obtain ⟨hkeys, htime, hsort⟩ := h
  unfold accessT1Hit
  cases hg : jsGet σ.t1 key with
  | none =>
    obtain ⟨it, hit⟩ := jsGet_isSome_of_has hk
    rw [hg] at hit
    cases hit
  | some item =>
    dsimp only
    have ht1 : 1 ≤ keyCount σ.t1 key := (jsHas_iff_keyCount _ _).mp hk
    have ht2zero : keyCount σ.t2 key = 0 := by
      have := hkeys key
      unfold keyCount4 at this
      omega
    have ht2has : jsHas σ.t2 key = false := (jsHas_false_keyCount _ _).mpr ht2zero
    have happ := jsSet_append σ.t2 key (touch item n) ht2has
    have hstep := stepOk_replace
      { σ with t1 := jsDelete σ.t1 key, t2 := jsSet σ.t2 key (touch item n) } false
    obtain ⟨k4, _, _, _, _, hitems, hsorted⟩ := hstep
    refine ⟨?_, ?_, ?_⟩
    · refine keysOk_of_le ?_ hkeys
      intro a
      refine le_trans (k4 a) ?_
      unfold keyCount4
      dsimp only
      have hd := keyCount_delete σ.t1 key a
      have hs := keyCount_set_le σ.t2 key (touch item n) a
      by_cases hak : a = key
      · rw [hd, if_pos hak]
        rw [if_pos hak] at hs
        subst hak
        omega
      · rw [hd, if_neg hak]
        rw [if_neg hak] at hs
        omega
    · intro e he
      have hmid := hitems e he
      simp only [itemsOf, List.mem_append, happ] at hmid
      rcases hmid with ((hm | hm) | hm) | hm
      · exact lt_of_lt_of_le (htime e (by simp [itemsOf, List.mem_append, mem_jsDelete hm]))
          (by omega)
      · rcases hm with hm | hm
        · exact lt_of_lt_of_le (htime e (by simp [itemsOf, List.mem_append, hm])) (by omega)
        · have : e = (key, touch item n) := by simpa using hm
          rw [this]
          show (touch item n).lastAccessed < n + 1
          unfold touch
          simp only
          omega
      · exact lt_of_lt_of_le (htime e (by simp [itemsOf, List.mem_append, hm])) (by omega)
      · exact lt_of_lt_of_le (htime e (by simp [itemsOf, List.mem_append, hm])) (by omega)
    · apply hsorted
      unfold T2Sorted
      dsimp only
      rw [happ]
      refine sorted_append_one hsort ?_
      intro x hx
      exact htime x (by simp [itemsOf, List.mem_append, hx])

lemma inv_accessT2Hit {V : Type} {n : Int} {σ : ARCState V} (h : Inv n σ)
    (key : Key) (hk : jsHas σ.t2 key = true) : Inv (n + 1) (accessT2Hit σ key n) := by
  obtain ⟨hkeys, htime, hsort⟩ := h
  unfold accessT2Hit
  cases hg : jsGet σ.t2 key with
  | none =>
    obtain ⟨it, hit⟩ := jsGet_isSome_of_has hk
    rw [hg] at hit
    cases hit
  | some item =>
    dsimp only
    have ht2 : 1 ≤ keyCount σ.t2 key := (jsHas_iff_keyCount _ _).mp hk
    have hdel : jsHas (jsDelete σ.t2 key) key = false := jsHas_delete_self σ.t2 key
    have happ := jsSet_append (jsDelete σ.t2 key) key (touch item n) hdel
    have hstep := stepOk_replace
      { σ with t2 := jsSet (jsDelete σ.t2 key) key (touch item n) } true
    obtain ⟨k4, _, _, _, _, hitems, hsorted⟩ := hstep
    refine ⟨?_, ?_, ?_⟩
    · refine keysOk_of_le ?_ hkeys
      intro a
      refine le_trans (k4 a) ?_
      unfold keyCount4
      dsimp only
      have hs := keyCount_set_le (jsDelete σ.t2 key) key (touch item n) a
      have hd := keyCount_delete σ.t2 key a
      by_cases hak : a = key
      · rw [if_pos hak] at hs
        rw [hd, if_pos hak] at hs
        subst hak
        omega
      · rw [if_neg hak] at hs
        rw [hd, if_neg hak] at hs
        omega
    · intro e he
      have hmid := hitems e he
      simp only [itemsOf, List.mem_append, happ] at hmid
      rcases hmid with ((hm | hm) | hm) | hm
      · exact lt_of_lt_of_le (htime e (by simp [itemsOf, List.mem_append, hm])) (by omega)
      · rcases hm with hm | hm
        · exact lt_of_lt_of_le
            (htime e (by simp [itemsOf, List.mem_append, mem_jsDelete hm])) (by omega)
        · have : e = (key, touch item n) := by simpa using hm
          rw [this]
          show (touch item n).lastAccessed < n + 1
          unfold touch
          simp only
          omega
      · exact lt_of_lt_of_le (htime e (by simp [itemsOf, List.mem_append, hm])) (by omega)
      · exact lt_of_lt_of_le (htime e (by simp [itemsOf, List.mem_append, hm])) (by omega)
    · apply hsorted
      unfold T2Sorted
      dsimp only
      rw [happ]
      refine sorted_append_one (jsDelete_pairwise hsort) ?_
      intro x hx
      exact htime x (by simp [itemsOf, List.mem_append, mem_jsDelete hx])

lemma keyCount_singleton {V : Type} (k : Key) (it : CacheItem V) (a : Key) :
    keyCount [(k, it)] a = if a = k then 1 else 0 := by
  unfold keyCount
  by_cases hak : a = k
  · subst hak
    simp [List.countP_cons]
  · have hka : k ≠ a := fun hke => hak hke.symm
    simp [List.countP_cons, hak, hka]

lemma inv_accessB1Hit {V : Type} {n : Int} {σ : ARCState V} (h : Inv n σ)
    (key : Key) (value : V) (hk : jsHas σ.b1 key = true) :
    Inv (n + 1) (accessB1Hit σ key value n) := by
  obtain ⟨hkeys, htime, hsort⟩ := h
  have hb1 : 1 ≤ keyCount σ.b1 key := (jsHas_iff_keyCount _ _).mp hk
  have hz : keyCount σ.t1 key = 0 ∧ keyCount σ.t2 key = 0 ∧ keyCount σ.b2 key = 0 := by
    have := hkeys key
    unfold keyCount4 at this
    omega
  unfold accessB1Hit
  dsimp only
  have hstep := stepOk_replace
    { σ with p := min σ.capacity (σ.p + min (σ.b2.length : Int) 1) } true
  obtain ⟨k4, kt1, kt2, kb1, kb2, hitems, hsorted⟩ := hstep
  dsimp only at kt1 kt2 kb1 kb2
  have ht2c : keyCount (replace
      { σ with p := min σ.capacity (σ.p + min (σ.b2.length : Int) 1) } true).t2 key = 0 := by
    have := kt2 key
    have h2 : keyCount σ.t2 key = 0 := hz.2.1
    omega
  have ht2has : jsHas (replace
      { σ with p := min σ.capacity (σ.p + min (σ.b2.length : Int) 1) } true).t2 key = false :=
    (jsHas_false_keyCount _ _).mpr ht2c
  have happ := jsSet_append _ key (⟨key, value, n, 1⟩ : CacheItem V) ht2has
  refine ⟨?_, ?_, ?_⟩
  · intro a
    unfold keyCount4
    dsimp only
    rw [happ, keyCount_append, keyCount_singleton, keyCount_delete]
    by_cases hak : a = key
    · subst hak
      rw [if_pos rfl, if_pos rfl]
      have h1 := kt1 a
      have h4 := kb2 a
      omega
    · rw [if_neg hak, if_neg hak]
      have := hkeys a
      unfold keyCount4 at this
      have hk4 := k4 a
      unfold keyCount4 at hk4
      dsimp only at hk4
      omega
  · intro e he
    simp only [itemsOf, List.mem_append, happ] at he
    rcases he with ((hm | hm) | hm) | hm
    · exact lt_of_lt_of_le (htime e (hitems e (by simp [itemsOf, List.mem_append, hm])))
        (by omega)
    · rcases hm with hm | hm
      · exact lt_of_lt_of_le (htime e (hitems e (by simp [itemsOf, List.mem_append, hm])))
          (by omega)
      · have : e = (key, (⟨key, value, n, 1⟩ : CacheItem V)) := by simpa using hm
        rw [this]
        show (n : Int) < n + 1
        omega
    · exact lt_of_lt_of_le
        (htime e (hitems e (by simp [itemsOf, List.mem_append, mem_jsDelete hm]))) (by omega)
    · exact lt_of_lt_of_le (htime e (hitems e (by simp [itemsOf, List.mem_append, hm])))
        (by omega)
  · unfold T2Sorted
    dsimp only
    rw [happ]
    refine sorted_append_one (hsorted hsort) ?_
    intro x hx
    exact htime x (hitems x (by simp [itemsOf, List.mem_append, hx]))

lemma inv_accessB2Hit {V : Type} {n : Int} {σ : ARCState V} (h : Inv n σ)
    (key : Key) (value : V) (hk : jsHas σ.b2 key = true) :
    Inv (n + 1) (accessB2Hit σ key value n) := by
  obtain ⟨hkeys, htime, hsort⟩ := h
  have hb2 : 1 ≤ keyCount σ.b2 key := (jsHas_iff_keyCount _ _).mp hk
  have hz : keyCount σ.t1 key = 0 ∧ keyCount σ.t2 key = 0 ∧ keyCount σ.b1 key = 0 := by
    have := hkeys key
    unfold keyCount4 at this
    omega
  unfold accessB2Hit
  dsimp only
  have hstep := stepOk_replace
    { σ with p := max 0 (σ.p - min (σ.b1.length : Int) 1) } false
  obtain ⟨k4, kt1, kt2, kb1, kb2, hitems, hsorted⟩ := hstep
  dsimp only at kt1 kt2 kb1 kb2
  have ht2c : keyCount (replace
      { σ with p := max 0 (σ.p - min (σ.b1.length : Int) 1) } false).t2 key = 0 := by
    have := kt2 key
    have h2 : keyCount σ.t2 key = 0 := hz.2.1
    omega
  have ht2has : jsHas (replace
      { σ with p := max 0 (σ.p - min (σ.b1.length : Int) 1) } false).t2 key = false :=
    (jsHas_false_keyCount _ _).mpr ht2c
  have happ := jsSet_append _ key (⟨key, value, n, 1⟩ : CacheItem V) ht2has
  refine ⟨?_, ?_, ?_⟩
  · intro a
    unfold keyCount4
    dsimp only
    rw [happ, keyCount_append, keyCount_singleton, keyCount_delete]
    by_cases hak : a = key
    · subst hak
      rw [if_pos rfl, if_pos rfl]
      have h1 := kt1 a
      have h3 := kb1 a
      omega
    · rw [if_neg hak, if_neg hak]
      have := hkeys a
      unfold keyCount4 at this
      have hk4 := k4 a
      unfold keyCount4 at hk4
      dsimp only at hk4
      omega
  · intro e he
    simp only [itemsOf, List.mem_append, happ] at he
    rcases he with ((hm | hm) | hm) | hm
    · exact lt_of_lt_of_le (htime e (hitems e (by simp [itemsOf, List.mem_append, hm])))
        (by omega)
    · rcases hm with hm | hm
      · exact lt_of_lt_of_le (htime e (hitems e (by simp [itemsOf, List.mem_append, hm])))
          (by omega)
      · have : e = (key, (⟨key, value, n, 1⟩ : CacheItem V)) := by simpa using hm
        rw [this]
        show (n : Int) < n + 1
        omega
    · exact lt_of_lt_of_le (htime e (hitems e (by simp [itemsOf, List.mem_append, hm])))
        (by omega)
    · exact lt_of_lt_of_le
        (htime e (hitems e (by simp [itemsOf, List.mem_append, mem_jsDelete hm]))) (by omega)
  · unfold T2Sorted
    dsimp only
    rw [happ]
    refine sorted_append_one (hsorted hsort) ?_
    intro x hx
    exact htime x (hitems x (by simp [itemsOf, List.mem_append, hx]))

lemma stepOk_missMgmt {V : Type} (σ : ARCState V) : StepOk σ (missMgmt σ) := by
  unfold missMgmt
  split_ifs with h1 h2 h3 h4
  · obtain ⟨e1, e2, eb2, hb1d, hSO⟩ := discardB1_facts σ
    refine stepOk_comp hSO e1 e2 hb1d ?_ (stepOk_replace _ false)
    intro a
    rw [eb2]
  · exact stepOk_evictT1 σ
  · obtain ⟨e1, e2, eb1, hb2d, hSO⟩ := discardB2_facts σ
    refine stepOk_comp hSO e1 e2 ?_ hb2d (stepOk_replace _ false)
    intro a
    rw [eb1]
  · exact stepOk_replace σ false
  · exact stepOk_refl σ

lemma inv_accessMiss {V : Type} {n : Int} {σ : ARCState V} (h : Inv n σ)
    (key : Key) (value : V)
    (hk1 : jsHas σ.t1 key = false) (hk2 : jsHas σ.t2 key = false)
    (hk3 : jsHas σ.b1 key = false) (hk4 : jsHas σ.b2 key = false) :
    Inv (n + 1) (accessMiss σ key value n) := by
  obtain ⟨hkeys, htime, hsort⟩ := h
  have hz1 := (jsHas_false_keyCount _ _).mp hk1
  have hz2 := (jsHas_false_keyCount _ _).mp hk2
  have hz3 := (jsHas_false_keyCount _ _).mp hk3
  have hz4 := (jsHas_false_keyCount _ _).mp hk4
  obtain ⟨k4, kt1, kt2, kb1, kb2, hitems, hsorted⟩ := stepOk_missMgmt σ
  have ht1c : keyCount (missMgmt σ).t1 key = 0 := by
    have := kt1 key
    omega
  have ht1has : jsHas (missMgmt σ).t1 key = false := (jsHas_false_keyCount _ _).mpr ht1c
  have happ := jsSet_append _ key (⟨key, value, n, 1⟩ : CacheItem V) ht1has
  unfold accessMiss
  refine ⟨?_, ?_, ?_⟩
  · intro a
    unfold keyCount4
    dsimp only
    rw [happ, keyCount_append, keyCount_singleton]
    by_cases hak : a = key
    · subst hak
      rw [if_pos rfl]
      have h2 := kt2 a
      have h3 := kb1 a
      have h4 := kb2 a
      omega
    · rw [if_neg hak]
      have := hkeys a
      unfold keyCount4 at this
      have hk4 := k4 a
      unfold keyCount4 at hk4
      omega
  · intro e he
    simp only [itemsOf, List.mem_append, happ] at he
    rcases he with ((hm | hm) | hm) | hm
    · rcases hm with hm | hm
      · exact lt_of_lt_of_le (htime e (hitems e (by simp [itemsOf, List.mem_append, hm])))
          (by omega)
      · have : e = (key, (⟨key, value, n, 1⟩ : CacheItem V)) := by simpa using hm
        rw [this]
        show (n : Int) < n + 1
        omega
    · exact lt_of_lt_of_le (htime e (hitems e (by simp [itemsOf, List.mem_append, hm])))
        (by omega)
    · exact lt_of_lt_of_le (htime e (hitems e (by simp [itemsOf, List.mem_append, hm])))
        (by omega)
    · exact lt_of_lt_of_le (htime e (hitems e (by simp [itemsOf, List.mem_append, hm])))
        (by omega)
  · exact hsorted hsort

lemma inv_access {V : Type} {n : Int} {σ : ARCState V} (h : Inv n σ)
    (key : Key) (value : V) : Inv (n + 1) (access σ key value n) := by
  unfold access
  by_cases h1 : jsHas σ.t1 key = true
  · rw [if_pos h1]
    exact inv_accessT1Hit h key h1
  · rw [if_neg h1]
    by_cases h2 : jsHas σ.t2 key = true
    · rw [if_pos h2]
      exact inv_accessT2Hit h key h2
    · rw [if_neg h2]
      by_cases h3 : jsHas σ.b1 key = true
      · rw [if_pos h3]
        exact inv_accessB1Hit h key value h3
      · rw [if_neg h3]
        by_cases h4 : jsHas σ.b2 key = true
        · rw [if_pos h4]
          exact inv_accessB2Hit h key value h4
        · rw [if_neg h4]
          exact inv_accessMiss h key value
            (Bool.not_eq_true _ ▸ h1) (Bool.not_eq_true _ ▸ h2)
            (Bool.not_eq_true _ ▸ h3) (Bool.not_eq_true _ ▸ h4)

lemma inv_mkARC {V : Type} (n : Int) (cap : Int) : Inv n (mkARC (V := V) cap) := by
  refine ⟨?_, ?_, ?_⟩
  · intro a
    unfold keyCount4 keyCount mkARC
    simp
  · intro e he
    simp [itemsOf, mkARC] at he
  · unfold T2Sorted mkARC
    simp

lemma inv_runFrom {V : Type} {σ : ARCState V} {n : Int}
    (h : Inv n σ) (seq : List (Key × V)) :
    Inv (n + seq.length) (runFrom σ seq n) := by
  induction seq generalizing σ n with
  | nil =>
    simpa using h
  | cons e rest ih =>
    obtain ⟨k, v⟩ := e
    have := ih (inv_access h k v)
    unfold runFrom
    have harith : (n + 1) + (rest.length : Int) = n + ((rest.length : Int) + 1) := by omega
    rw [harith] at this
    simpa using this

/-- Every state of the run of an access sequence from a fresh cache
satisfies the invariant. -/
lemma inv_run {V : Type} (cap : Int) (seq : List (Key × V)) (n : Int) :
    Inv (n + seq.length) (runFrom (mkARC cap) seq n) :=
  inv_runFrom (inv_mkARC n cap) seq

/-! Match scorer from src/windows/LauncherApp.tsx.  JavaScript strings are
modelled as lists of characters; toLowerCase is modelled per character.
The matchType string values of the source (exact, prefix, fuzzy) become
the constructors exact, pfx, fuzzy. -/

inductive MatchType where
  | exact
  | pfx
  | fuzzy
deriving Repr, DecidableEq

/-- Model of String.prototype.toLowerCase. -/
def toLowerStr (s : List Char) : List Char := s.map Char.toLower

/-- First index of character c in the list, if any. -/
def charIdx (l : List Char) (c : Char) : Option Nat :=
  match l with
  | [] => none
  | x :: xs => if x = c then some 0 else (charIdx xs c).map (· + 1)

/-- Model of target.indexOf(c, start): the least index that is at least
start holding character c. -/
def indexOfFrom (t : List Char) (c : Char) (start : Nat) : Option Nat :=
  (charIdx (t.drop start) c).map (start + ·)

/-- Inner loop of fuzzyMatchPenalty: walk the remaining query characters,
always taking the next occurrence after the current index, accumulating
the gap penalties.  Returns the accumulated penalty and the index of the
last matched character. -/
def greedyRun (t : List Char) (qs : List Char) (cur pen : Nat) : Option (Nat × Nat) :=
  match qs with
  | [] => some (pen, cur)
  | c :: rest =>
    match indexOfFrom t c (cur + 1) with
    | none => none
    | some i => greedyRun t rest i (pen + (i - cur - 1))

/-- Best-so-far update of the outer loop of fuzzyMatchPenalty. -/
def bestUpdate (best : Option Nat) (total : Nat) : Option Nat :=
  match best with
  | none => some total
  | some b => if total < b then some total else some b

/-- Model of fuzzyMatchPenalty from src/windows/LauncherApp.tsx lines 37
to 77: try every occurrence of the first query character as a start,
extend greedily, add the trailing length, and keep the minimum. -/
def fuzzyMatchPenalty (q t : List Char) : Option Nat :=
  match q with
  | [] => some 0
  | c :: rest =>
    (List.range t.length).foldl
      (fun best s =>
        if t.get? s = some c then
          match greedyRun t rest s s with
          | some (pen, last) => bestUpdate best (pen + (t.length - last - 1))
          | none => best
        else best)
      none

/-- Result record of getMatchForField (field and weight are added later). -/
structure FieldScore where
  baseScore : Nat
  matchType : MatchType
  totalScore : Nat
deriving Repr, DecidableEq

/-- Model of getMatchForField from src/windows/LauncherApp.tsx lines 79
to 98.  The startsWith test is modelled as a take-equality. -/
def getMatchForField (search value : List Char) : Option FieldScore :=
  let ns := toLowerStr search
  let hay := toLowerStr value
  if hay = ns then some ⟨0, MatchType.exact, 0⟩
  else if hay.take ns.length = ns then some ⟨1, MatchType.pfx, 1⟩
  else
    match fuzzyMatchPenalty ns hay with
    | none => none
    | some pen => some ⟨2 + pen, MatchType.fuzzy, 2 + pen⟩

inductive MatchField where
  | name
  | source
  | launchPath
deriving Repr, DecidableEq

/-- Field weights from FIELD_WEIGHTS. -/
def FIELD_WEIGHTS : MatchField → Nat
  | MatchField.name => 0
  | MatchField.source => 100
  | MatchField.launchPath => 200

/-- The fields of a candidate application that the matcher reads. -/
structure AppFields where
  name : List Char
  source : List Char
  launchPath : List Char
deriving Repr, DecidableEq

/-- Match record for a whole app, mirroring AppMatch without the app itself. -/
structure AppMatch where
  baseScore : Nat
  fieldWeight : Nat
  matchType : MatchType
  totalScore : Nat
  field : MatchField
deriving Repr, DecidableEq

/-- Accessors of MATCH_FIELDS in their source order. -/
def fieldValue (app : AppFields) : MatchField → List Char
  | MatchField.name => app.name
  | MatchField.source => app.source
  | MatchField.launchPath => app.launchPath

/-- Condition under which the candidate replaces the best match so far,
copied from the comparison chain in getBestMatchForApp. -/
def betterCandidate (cand : AppMatch) (best : Option AppMatch) : Bool :=
  match best with
  | none => true
  | some b =>
    decide (cand.totalScore < b.totalScore ∨
      (cand.totalScore = b.totalScore ∧ cand.baseScore < b.baseScore) ∨
      (cand.totalScore = b.totalScore ∧ cand.baseScore = b.baseScore ∧
        cand.fieldWeight < b.fieldWeight))

/-- Model of getBestMatchForApp from src/windows/LauncherApp.tsx lines
100 to 135.  Note that the source scores only the literal field values;
no pinyin variant is consulted anywhere in this function. -/
def getBestMatchForApp (app : AppFields) (search : List Char) : Option AppMatch :=
  let ns := toLowerStr search
  [MatchField.name, MatchField.source, MatchField.launchPath].foldl
    (fun best field =>
      let value := fieldValue app field
      if value = [] then best
      else
        match getMatchForField ns value with
        | none => best
        | some m =>
          let fw := FIELD_WEIGHTS field
          let cand : AppMatch := ⟨m.baseScore, fw, m.matchType, m.totalScore + fw, field⟩
          if betterCandidate cand best then some cand else best)
    none

/-! Characterization of the fuzzy matcher.  The key facts: the greedy
inner loop succeeds exactly when the remaining query is a subsequence of
the target after the current index, and every successful start yields
the same total penalty, namely target length minus query length. -/

lemma charIdx_get {l : List Char} {c : Char} {j : Nat}
    (h : charIdx l c = some j) : l.get? j = some c := by
  induction l generalizing j with
  | nil => simp [charIdx] at h
  | cons x xs ih =>
    unfold charIdx at h
    by_cases hx : x = c
    · rw [if_pos hx] at h
      have : j = 0 := by simpa using h.symm
      subst this
      simp [hx]
    · rw [if_neg hx] at h
      cases hr : charIdx xs c with
      | none => rw [hr] at h; simp at h
      | some j0 =>
        rw [hr] at h
        have : j = j0 + 1 := by simpa using h.symm
        subst this
        simpa using ih hr

lemma charIdx_min {l : List Char} {c : Char} {j : Nat}
    (h : charIdx l c = some j) : ∀ i, l.get? i = some c → j ≤ i := by
  induction l generalizing j with
  | nil => intro i hi; simp at hi
  | cons x xs ih =>
    intro i hi
    unfold charIdx at h
    by_cases hx : x = c
    · rw [if_pos hx] at h
      have : j = 0 := by simpa using h.symm
      omega
    · rw [if_neg hx] at h
      cases hr : charIdx xs c with
      | none => rw [hr] at h; simp at h
      | some j0 =>
        rw [hr] at h
        have hj : j = j0 + 1 := by simpa using h.symm
        cases i with
        | zero =>
          exfalso
          apply hx
          simpa using hi
        | succ i0 =>
          have : j0 ≤ i0 := ih hr i0 (by simpa using hi)
          omega

lemma charIdx_some_of_mem {l : List Char} {c : Char} (h : c ∈ l) :
    ∃ j, charIdx l c = some j := by
  induction l with
  | nil => simp at h
  | cons x xs ih =>
    unfold charIdx
    by_cases hx : x = c
    · exact ⟨0, by rw [if_pos hx]⟩
    · rw [if_neg hx]
      have hc : c ∈ xs := by
        rcases List.mem_cons.mp h with h1 | h1
        · exact absurd h1.symm hx
        · exact h1
      obtain ⟨j0, hj0⟩ := ih hc
      exact ⟨j0 + 1, by rw [hj0]; rfl⟩

lemma indexOfFrom_some {t : List Char} {c : Char} {start i : Nat}
    (h : indexOfFrom t c start = some i) :
    start ≤ i ∧ t.get? i = some c := by
  unfold indexOfFrom at h
  cases hr : charIdx (t.drop start) c with
  | none => rw [hr] at h; simp at h
  | some j =>
    rw [hr] at h
    have hij : i = start + j := by simpa using h.symm
    subst hij
    refine ⟨Nat.le_add_right _ _, ?_⟩
    have := charIdx_get hr
    rwa [List.get?_drop] at this

lemma indexOfFrom_min {t : List Char} {c : Char} {start i : Nat}
    (h : indexOfFrom t c start = some i) :
    ∀ j, start ≤ j → t.get? j = some c → i ≤ j := by
  unfold indexOfFrom at h
  cases hr : charIdx (t.drop start) c with
  | none => rw [hr] at h; simp at h
  | some j0 =>
    rw [hr] at h
    have hij : i = start + j0 := by simpa using h.symm
    subst hij
    intro j hsj hj
    have : (t.drop start).get? (j - start) = some c := by
      rw [List.get?_drop]
      have : start + (j - start) = j := by omega
      rw [this]
      exact hj
    have := charIdx_min hr _ this
    omega

lemma indexOfFrom_some_of_mem {t : List Char} {c : Char} {start : Nat}
    (h : c ∈ t.drop start) : ∃ i, indexOfFrom t c start = some i := by
  obtain ⟨j, hj⟩ := charIdx_some_of_mem h
  exact ⟨start + j, by unfold indexOfFrom; rw [hj]; rfl⟩

/-- A character at index s of the target followed by a subsequence of
the remaining target gives a subsequence of the target from any earlier
position. -/
lemma cons_sublist_of_at {t rest : List Char} {c : Char} {m s : Nat}
    (hm : m ≤ s) (hget : t.get? s = some c) (hrest : List.Sublist rest (t.drop (s + 1))) :
    List.Sublist (c :: rest) (t.drop m) := by
  obtain ⟨hlt, hval⟩ := List.get?_eq_some.mp hget
  have hd : t[s] :: t.drop (s + 1) = t.drop s := List.getElem_cons_drop t s hlt
  have hcs : List.Sublist (c :: rest) (t.drop s) := by
    rw [← hd]
    have : t[s] = c := hval
    rw [this]
    exact List.Sublist.cons₂ c hrest
  have hdm : t.drop s = List.drop (s - m) (t.drop m) := by
    rw [List.drop_drop]
    congr 1
    omega
  refine List.Sublist.trans hcs ?_
  rw [hdm]
  exact List.drop_sublist _ _

/-- Decomposition of a cons subsequence of a suffix: the head character
occurs at some index at least m, with the tail a subsequence of the
target past that index. -/
lemma exists_at_of_cons_sublist {t rest : List Char} {c : Char} {m : Nat}
    (h : List.Sublist (c :: rest) (t.drop m)) :
    ∃ s, m ≤ s ∧ t.get? s = some c ∧ List.Sublist rest (t.drop (s + 1)) := by
  obtain ⟨r₁, r₂, heq, hc, hrest⟩ := List.cons_sublist_iff.mp h
  obtain ⟨j, hj⟩ := List.mem_iff_get?.mp hc
  have hjlt : j < r₁.length := (List.get?_eq_some.mp hj).1
  refine ⟨m + j, Nat.le_add_right _ _, ?_, ?_⟩
  · rw [← List.get?_drop, heq, List.get?_append hjlt]
    exact hj
  · have hr₂ : r₂ = t.drop (m + r₁.length) := by
      have := congrArg (List.drop r₁.length) heq
      rw [List.drop_left] at this
      rw [← this, List.drop_drop]
    have hsub : List.Sublist (t.drop (m + r₁.length)) (t.drop (m + j + 1)) := by
      have : t.drop (m + r₁.length) = List.drop ((m + r₁.length) - (m + j + 1)) (t.drop (m + j + 1)) := by
        rw [List.drop_drop]
        congr 1
        omega
      rw [this]
      exact List.drop_sublist _ _
    exact List.Sublist.trans (hr₂ ▸ hrest) hsub

lemma greedyRun_sublist_of_some {t : List Char} {qs : List Char} :
    ∀ {cur pen pen2 last : Nat}, greedyRun t qs cur pen = some (pen2, last) →
      List.Sublist qs (t.drop (cur + 1)) := by
  induction qs with
  | nil => intro cur pen pen2 last _; exact List.nil_sublist _
  | cons c rest ih =>
    intro cur pen pen2 last h
    unfold greedyRun at h
    cases hio : indexOfFrom t c (cur + 1) with
    | none => rw [hio] at h; simp at h
    | some i =>
      rw [hio] at h
      obtain ⟨hle, hget⟩ := indexOfFrom_some hio
      exact cons_sublist_of_at hle hget (ih h)

lemma greedyRun_some_of_sublist {t : List Char} {qs : List Char} :
    ∀ {cur : Nat}, List.Sublist qs (t.drop (cur + 1)) →
      ∀ pen, ∃ pen2 last, greedyRun t qs cur pen = some (pen2, last) := by
  induction qs with
  | nil => intro cur _ pen; exact ⟨pen, cur, rfl⟩
  | cons c rest ih =>
    intro cur h pen
    obtain ⟨s, hs, hget, hrest⟩ := exists_at_of_cons_sublist h
    have hmem : c ∈ t.drop (cur + 1) := by
      rw [List.mem_iff_get?]
      refine ⟨s - (cur + 1), ?_⟩
      rw [List.get?_drop]
      have : cur + 1 + (s - (cur + 1)) = s := by omega
      rw [this]
      exact hget
    obtain ⟨i, hio⟩ := indexOfFrom_some_of_mem hmem
    have hile : i ≤ s := indexOfFrom_min hio s hs hget
    have hrest2 : List.Sublist rest (t.drop (i + 1)) := by
      have : t.drop (s + 1) = List.drop ((s + 1) - (i + 1)) (t.drop (i + 1)) := by
        rw [List.drop_drop]
        congr 1
        omega
      refine List.Sublist.trans hrest ?_
      rw [this]
      exact List.drop_sublist _ _
    obtain ⟨pen2, last, hgr⟩ := ih hrest2 (pen + (i - cur - 1))
    refine ⟨pen2, last, ?_⟩
    unfold greedyRun
    rw [hio]
    exact hgr

lemma greedyRun_val {t : List Char} {qs : List Char} :
    ∀ {cur pen pen2 last : Nat}, greedyRun t qs cur pen = some (pen2, last) →
      pen2 + qs.length + cur = pen + last ∧ cur ≤ last ∧
      (qs = [] → last = cur) ∧ (qs ≠ [] → last < t.length) := by
  induction qs with
  | nil =>
    intro cur pen pen2 last h
    unfold greedyRun at h
    injection h with h1
    injection h1 with ha hb
    subst ha
    subst hb
    exact ⟨by simp, le_refl _, fun _ => rfl, fun hne => absurd rfl hne⟩
  | cons c rest ih =>
    intro cur pen pen2 last h
    unfold greedyRun at h
    cases hio : indexOfFrom t c (cur + 1) with
    | none => rw [hio] at h; simp at h
    | some i =>
      rw [hio] at h
      obtain ⟨hle, hget⟩ := indexOfFrom_some hio
      have hlt : i < t.length := (List.get?_eq_some.mp hget).1
      obtain ⟨hv, hcl, hnil, hlen⟩ := ih h
      refine ⟨by simp only [List.length_cons]; omega, by omega, ?_, ?_⟩
      · intro hc
        exact absurd hc (List.cons_ne_nil c rest)
      · intro _
        by_cases hr : rest = []
        · have := hnil hr
          omega
        · exact hlen hr

/-- Step function of the outer fold of fuzzyMatchPenalty, abstracted
over the per-start result. -/
def stepOf (g : Nat → Option Nat) : Option Nat → Nat → Option Nat :=
  fun best s =>
    match g s with
    | some tot => bestUpdate best tot
    | none => best

/-- Per-start result of fuzzyMatchPenalty for first character c and
remaining query rest. -/
def startResult (t : List Char) (c : Char) (rest : List Char) (s : Nat) : Option Nat :=
  if t.get? s = some c then
    (greedyRun t rest s s).map (fun pr => pr.1 + (t.length - pr.2 - 1))
  else none

lemma fuzzy_eq_fold (c : Char) (rest t : List Char) :
    fuzzyMatchPenalty (c :: rest) t =
      (List.range t.length).foldl (stepOf (startResult t c rest)) none := by
  unfold fuzzyMatchPenalty
  refine List.foldl_ext _ _ none ?_
  intro best s _
  unfold stepOf startResult
  by_cases hg : t.get? s = some c
  · rw [if_pos hg, if_pos hg]
    cases greedyRun t rest s s with
    | none => rfl
    | some pr =>
      obtain ⟨pen, last⟩ := pr
      rfl
  · rw [if_neg hg, if_neg hg]

lemma foldl_stepOf_all_none {g : Nat → Option Nat} :
    ∀ (L : List Nat), (∀ s ∈ L, g s = none) → ∀ acc, L.foldl (stepOf g) acc = acc := by
  intro L
  induction L with
  | nil => intro _ acc; rfl
  | cons s L ih =>
    intro h acc
    rw [List.foldl_cons]
    have hs : g s = none := h s (by simp)
    have hstep : stepOf g acc s = acc := by
      unfold stepOf
      rw [hs]
    rw [hstep]
    exact ih (fun x hx => h x (by simp [hx])) acc

lemma foldl_stepOf_const {g : Nat → Option Nat} {v₀ : Nat} :
    ∀ (L : List Nat), (∀ s ∈ L, ∀ v, g s = some v → v = v₀) →
      L.foldl (stepOf g) (some v₀) = some v₀ := by
  intro L
  induction L with
  | nil => intro _; rfl
  | cons s L ih =>
    intro h
    rw [List.foldl_cons]
    have hstep : stepOf g (some v₀) s = some v₀ := by
      unfold stepOf
      cases hg : g s with
      | none => rfl
      | some v =>
        have hv := h s (by simp) v hg
        subst hv
        show bestUpdate (some v) v = some v
        simp [bestUpdate]
    rw [hstep]
    exact ih (fun x hx v hv => h x (by simp [hx]) v hv)

lemma foldl_stepOf_some {g : Nat → Option Nat} {v₀ : Nat} :
    ∀ (L : List Nat), (∀ s ∈ L, ∀ v, g s = some v → v = v₀) →
      (∃ s ∈ L, g s ≠ none) → L.foldl (stepOf g) none = some v₀ := by
  intro L
  induction L with
  | nil =>
    intro _ hex
    simp at hex
  | cons s L ih =>
    intro h hex
    rw [List.foldl_cons]
    cases hg : g s with
    | some v =>
      have hv : v = v₀ := h s (by simp) v hg
      have hstep : stepOf g none s = some v₀ := by
        unfold stepOf
        rw [hg, hv]
        rfl
      rw [hstep]
      exact foldl_stepOf_const L (fun x hx v2 hv2 => h x (by simp [hx]) v2 hv2)
    | none =>
      have hstep : stepOf g none s = none := by
        unfold stepOf
        rw [hg]
      rw [hstep]
      refine ih (fun x hx v hv => h x (by simp [hx]) v hv) ?_
      obtain ⟨s2, hs2, hneq⟩ := hex
      rcases List.mem_cons.mp hs2 with he | hs2
      · rw [← he] at hg
        exact absurd hg hneq
      · exact ⟨s2, hs2, hneq⟩

lemma startResult_val {t : List Char} {c : Char} {rest : List Char} {s v : Nat}
    (h : startResult t c rest s = some v) :
    v = t.length - (rest.length + 1) ∧ List.Sublist (c :: rest) t := by
  unfold startResult at h
  by_cases hg : t.get? s = some c
  · rw [if_pos hg] at h
    cases hgr : greedyRun t rest s s with
    | none => rw [hgr] at h; simp at h
    | some pr =>
      obtain ⟨pen2, last⟩ := pr
      rw [hgr] at h
      have hv : v = pen2 + (t.length - last - 1) := by simpa using h.symm
      obtain ⟨hval, hcl, hnil, hlen⟩ := greedyRun_val hgr
      have hslt : s < t.length := (List.get?_eq_some.mp hg).1
      have hlast : last < t.length := by
        by_cases hr : rest = []
        · have := hnil hr
          omega
        · exact hlen hr
      have hsub : List.Sublist (c :: rest) t := by
        have hrs : List.Sublist rest (t.drop (s + 1)) := greedyRun_sublist_of_some hgr
        have := cons_sublist_of_at (Nat.zero_le s) hg hrs
        simpa using this
      exact ⟨by omega, hsub⟩
  · rw [if_neg hg] at h
    simp at h

lemma startResult_some_of_sublist {t rest : List Char} {c : Char}
    (h : List.Sublist (c :: rest) t) :
    ∃ s ∈ List.range t.length, startResult t c rest s ≠ none := by
  have h0 : List.Sublist (c :: rest) (t.drop 0) := by simpa using h
  obtain ⟨s, _, hget, hrest⟩ := exists_at_of_cons_sublist h0
  have hslt : s < t.length := (List.get?_eq_some.mp hget).1
  refine ⟨s, List.mem_range.mpr hslt, ?_⟩
  unfold startResult
  rw [if_pos hget]
  obtain ⟨pen2, last, hgr⟩ := greedyRun_some_of_sublist hrest s
  rw [hgr]
  simp

/-- The code returns a fuzzy penalty exactly when the query (nonempty
here) is a subsequence of the target, and then the penalty is target
length minus query length. -/
lemma fuzzy_some_of_sublist {t rest : List Char} {c : Char}
    (h : List.Sublist (c :: rest) t) :
    fuzzyMatchPenalty (c :: rest) t = some (t.length - (rest.length + 1)) := by
  rw [fuzzy_eq_fold]
  refine foldl_stepOf_some (List.range t.length) ?_ ?_
  · intro s _ v hv
    exact (startResult_val hv).1
  · exact startResult_some_of_sublist h

lemma fuzzy_none_of_not_sublist {t rest : List Char} {c : Char}
    (h : ¬ List.Sublist (c :: rest) t) :
    fuzzyMatchPenalty (c :: rest) t = none := by
  rw [fuzzy_eq_fold]
  refine foldl_stepOf_all_none (List.range t.length) ?_ none
  intro s _
  cases hg : startResult t c rest s with
  | none => rfl
  | some v => exact absurd (startResult_val hg).2 h

/-! Alignments: the spec-side description of the fuzzy penalty. -/

/-- Sum of the gaps between consecutive alignment indices. -/
def gapsPen : List Nat → Nat
  | [] => 0
  | [_] => 0
  | a :: b :: r => (b - a - 1) + gapsPen (b :: r)

/-- Last element of a list of indices (0 for the empty list). -/
def lastIdx : List Nat → Nat
  | [] => 0
  | [i] => i
  | _ :: r => lastIdx r

/-- Penalty of an alignment per the specification: index of the first
matched character, plus the gaps between consecutive matched characters,
plus the trailing unmatched length after the last matched character. -/
def alignPenalty (n : Nat) (idxs : List Nat) : Nat :=
  match idxs with
  | [] => 0
  | i :: rest => i + gapsPen (i :: rest) + (n - lastIdx (i :: rest) - 1)

/-- A valid alignment of the query q inside the value t: one strictly
increasing index per query character, each index holding that character. -/
def IsAlignment (q t : List Char) (idxs : List Nat) : Prop :=
  idxs.length = q.length ∧ idxs.Pairwise (· < ·) ∧
  ∀ pr ∈ idxs.zip q, t.get? pr.1 = some pr.2

lemma lastIdx_cons_cons (i b : Nat) (r : List Nat) :
    lastIdx (i :: b :: r) = lastIdx (b :: r) := rfl

lemma gapsPen_cons_cons (i b : Nat) (r : List Nat) :
    gapsPen (i :: b :: r) = (b - i - 1) + gapsPen (b :: r) := rfl

lemma lastIdx_mem (l : List Nat) (h : l ≠ []) : lastIdx l ∈ l := by
  induction l with
  | nil => exact absurd rfl h
  | cons a r ih =>
    cases r with
    | nil => simp [lastIdx]
    | cons b r2 =>
      rw [lastIdx_cons_cons]
      exact List.mem_cons_of_mem a (ih (List.cons_ne_nil _ _))

lemma gaps_telescope (rest : List Nat) : ∀ i : Nat, (i :: rest).Pairwise (· < ·) →
    i + gapsPen (i :: rest) + (i :: rest).length = lastIdx (i :: rest) + 1 := by
  induction rest with
  | nil =>
    intro i _
    simp [gapsPen, lastIdx]
  | cons b r ih =>
    intro i hp
    obtain ⟨hall, hp2⟩ := List.pairwise_cons.mp hp
    have hib : i < b := hall b (by simp)
    have htel := ih b hp2
    rw [gapsPen_cons_cons, lastIdx_cons_cons]
    simp only [List.length_cons] at htel ⊢
    omega

/-- Every valid alignment of a nonempty query has the same penalty:
target length minus query length. -/
lemma alignPenalty_eq {q t : List Char} {idxs : List Nat}
    (hal : IsAlignment q t idxs) (hq : q ≠ []) :
    alignPenalty t.length idxs = t.length - q.length := by
  obtain ⟨hlen, hpair, hzip⟩ := hal
  cases hidx : idxs with
  | nil =>
    exfalso
    apply hq
    rw [hidx] at hlen
    cases q with
    | nil => rfl
    | cons a b => simp at hlen
  | cons i rest =>
    rw [hidx] at hlen hpair hzip
    have htel := gaps_telescope rest i hpair
    have hlast_mem : lastIdx (i :: rest) ∈ i :: rest := lastIdx_mem _ (List.cons_ne_nil _ _)
    have hlast_lt : lastIdx (i :: rest) < t.length := by
      have hmap : List.map Prod.fst ((i :: rest).zip q) = i :: rest :=
        List.map_fst_zip _ _ (by omega)
      have hmem : lastIdx (i :: rest) ∈ List.map Prod.fst ((i :: rest).zip q) := by
        rw [hmap]
        exact hlast_mem
      obtain ⟨pr, hpr, hfst⟩ := List.mem_map.mp hmem
      have hlt := (List.get?_eq_some.mp (hzip pr hpr)).1
      omega
    have hlen2 : q.length = rest.length + 1 := by
      simp only [List.length_cons] at hlen
      omega
    show i + gapsPen (i :: rest) + (t.length - lastIdx (i :: rest) - 1) = t.length - q.length
    simp only [List.length_cons] at htel
    omega

/-- Existence of a valid alignment with all indices at least m is
equivalent to the query being a subsequence of the target from m on. -/
lemma alignment_sublist (q t : List Char) : ∀ m : Nat,
    (∃ idxs, IsAlignment q t idxs ∧ ∀ i ∈ idxs, m ≤ i) ↔
      List.Sublist q (t.drop m) := by
  induction q with
  | nil =>
    intro m
    constructor
    · intro _
      exact List.nil_sublist _
    · intro _
      exact ⟨[], ⟨rfl, List.Pairwise.nil, by simp⟩, by simp⟩
  | cons c q2 ih =>
    intro m
    constructor
    · rintro ⟨idxs, ⟨hlen, hpair, hzip⟩, hge⟩
      cases idxs with
      | nil => simp at hlen
      | cons j idxs2 =>
        have hget : t.get? j = some c := hzip (j, c) (by rw [List.zip_cons_cons]; simp)
        obtain ⟨hall, hp2⟩ := List.pairwise_cons.mp hpair
        have hrest : List.Sublist q2 (t.drop (j + 1)) := by
          refine (ih (j + 1)).mp ?_
          refine ⟨idxs2, ⟨by simpa using hlen, hp2, ?_⟩, ?_⟩
          · intro pr hpr
            refine hzip pr ?_
            rw [List.zip_cons_cons]
            exact List.mem_cons_of_mem _ hpr
          · intro i hi
            have := hall i hi
            omega
        exact cons_sublist_of_at (hge j (by simp)) hget hrest
    · intro h
      obtain ⟨s, hms, hget, hrest⟩ := exists_at_of_cons_sublist h
      obtain ⟨idxs2, ⟨hlen2, hp2, hzip2⟩, hge2⟩ := (ih (s + 1)).mpr hrest
      refine ⟨s :: idxs2, ⟨by simp [hlen2], ?_, ?_⟩, ?_⟩
      · refine List.pairwise_cons.mpr ⟨?_, hp2⟩
        intro i hi
        have := hge2 i hi
        omega
      · intro pr hpr
        rw [List.zip_cons_cons] at hpr
        rcases List.mem_cons.mp hpr with he | hpr
        · rw [he]
          exact hget
        · exact hzip2 pr hpr
      · intro i hi
        rcases List.mem_cons.mp hi with he | hi
        · rw [he]
          exact hms
        · have := hge2 i hi
          omega

/-! Phonetic expansion from src/utils/pinyin.ts.  The pinyin-pro library
is external to the repository, so its five invocations are abstracted as
an uninterpreted record of functions; the shuangpin calls sit inside a
try/catch and are therefore Option valued. -/

structure PinyinLib where
  full : List Char → List Char
  firstLetters : List Char → List Char
  xiaohe : List Char → Option (List Char)
  sougou : List Char → Option (List Char)
  microsoft : List Char → Option (List Char)

/-- Model of the CJK test regex of toPinyinVariants. -/
def hasChinese (t : List Char) : Bool :=
  t.any (fun c => decide (0x4e00 ≤ c.toNat ∧ c.toNat ≤ 0x9fa5))

/-- Model of Array.from(new Set(l)): first-occurrence deduplication. -/
def jsSetDedup (l : List (List Char)) : List (List Char) :=
  l.foldl (fun acc v => if v ∈ acc then acc else acc ++ [v]) []

/-- Model of toPinyinVariants from src/utils/pinyin.ts lines 14 to 70.
Note that the branch for text with no Chinese characters returns the
text verbatim, without lowercasing. -/
def toPinyinVariants (lib : PinyinLib) (text : List Char) : List (List Char) :=
  if text = [] then []
  else if hasChinese text = false then [text]
  else
    let v1 := if lib.full text = [] then [] else [toLowerStr (lib.full text)]
    let v2 := if lib.firstLetters text = [] then [] else [toLowerStr (lib.firstLetters text)]
    let vs :=
      [lib.xiaohe, lib.sougou, lib.microsoft].foldl
        (fun acc f =>
          match f text with
          | some s => if s = [] then acc else acc ++ [toLowerStr s]
          | none => acc)
        (v1 ++ v2)
    jsSetDedup (vs.filter (fun v => decide (v ≠ [])))

/-- Number of the four lists currently holding key k. -/
def listsHolding {V : Type} (σ : ARCState V) (k : Key) : Nat :=
  (if jsHas σ.t1 k then 1 else 0) + (if jsHas σ.t2 k then 1 else 0) +
  (if jsHas σ.b1 k then 1 else 0) + (if jsHas σ.b2 k then 1 else 0)

lemma listsHolding_le_keyCount4 {V : Type} (σ : ARCState V) (k : Key) :
    listsHolding σ k ≤ keyCount4 σ k := by
  unfold listsHolding keyCount4
  have b1 : (if jsHas σ.t1 k then 1 else 0) ≤ keyCount σ.t1 k := by
    by_cases h : jsHas σ.t1 k = true
    · rw [if_pos h]
      exact (jsHas_iff_keyCount _ _).mp h
    · rw [if_neg h]
      omega
  have b2 : (if jsHas σ.t2 k then 1 else 0) ≤ keyCount σ.t2 k := by
    by_cases h : jsHas σ.t2 k = true
    · rw [if_pos h]
      exact (jsHas_iff_keyCount _ _).mp h
    · rw [if_neg h]
      omega
  have b3 : (if jsHas σ.b1 k then 1 else 0) ≤ keyCount σ.b1 k := by
    by_cases h : jsHas σ.b1 k = true
    · rw [if_pos h]
      exact (jsHas_iff_keyCount _ _).mp h
    · rw [if_neg h]
      omega
  have b4 : (if jsHas σ.b2 k then 1 else 0) ≤ keyCount σ.b2 k := by
    by_cases h : jsHas σ.b2 k = true
    · rw [if_pos h]
      exact (jsHas_iff_keyCount _ _).mp h
    · rw [if_neg h]
      omega
  omega

/-- Reachability: some access sequence from a fresh cache produces σ. -/
def Reachable {V : Type} (σ : ARCState V) : Prop :=
  ∃ cap seq n, σ = runFrom (mkARC cap) seq n

lemma keyCount_le_one_of_reachable {V : Type} {σ : ARCState V} (h : Reachable σ) :
    ∀ a, keyCount4 σ a ≤ 1 := by
  obtain ⟨cap, seq, n, rfl⟩ := h
  exact (inv_run cap seq n).1

lemma jsMapOfList_aux {V : Type} (l : List (Entry V)) :
    ∀ acc : JsMap V, (∀ a, keyCount (acc ++ l) a ≤ 1) →
      List.foldl (fun m e => jsSet m e.1 e.2) acc l = acc ++ l := by
  induction l with
  | nil =>
    intro acc _
    simp
  | cons e rest ih =>
    intro acc h
    have hcnt : keyCount (acc ++ e :: rest) e.1 ≤ 1 := h e.1
    rw [keyCount_append] at hcnt
    have hone : 1 ≤ keyCount (e :: rest) e.1 := by
      unfold keyCount
      rw [List.countP_cons]
      simp
    have hacc : keyCount acc e.1 = 0 := by omega
    have hhas : jsHas acc e.1 = false := (jsHas_false_keyCount _ _).mpr hacc
    have hset : jsSet acc e.1 e.2 = acc ++ [e] := by
      rw [jsSet_append acc e.1 e.2 hhas]
    rw [List.foldl_cons, hset]
    have happ : (acc ++ [e]) ++ rest = acc ++ e :: rest := by simp
    rw [ih (acc ++ [e]) (by rw [happ]; exact h)]
    exact happ

lemma jsMapOfList_id {V : Type} (l : List (Entry V)) (h : ∀ a, keyCount l a ≤ 1) :
    jsMapOfList l = l := by
  unfold jsMapOfList
  have := jsMapOfList_aux l [] (by simpa using h)
  simpa using this

/-! Concrete states used by the per-claim counterexamples. -/

/-- Candidate from the launcher test suite: name 微信, source shortcut,
launch path C:/Example.exe. -/
def weixinApp : AppFields := ⟨"微信".toList, "shortcut".toList, "C:/Example.exe".toList⟩

/-- State of a capacity-1 ARC after the accesses a, b, a, c, d, c. -/
def c3State : ARCState Nat :=
  runFrom (mkARC 1) [("a", 0), ("b", 0), ("a", 0), ("c", 0), ("d", 0), ("c", 0)] 0

/-- State of a capacity-2 ARC after the accesses a, b, a. -/
def c4Pre : ARCState Nat := runFrom (mkARC 2) [("a", 0), ("b", 0), ("a", 0)] 0

/-- State of a capacity-5 ARC after the accesses a, b, c, a, b. -/
def c6State : ARCState Nat :=
  runFrom (mkARC 5) [("a", 0), ("b", 0), ("c", 0), ("a", 0), ("b", 0)] 0

/-- Malformed persisted record: the key a is present in both t1 and t2,
the access counts are negative, and p is negative. -/
def badData : ARCData Nat :=
  ⟨[("a", ⟨"a", 1, 0, -5⟩)], [("a", ⟨"a", 2, 0, -5⟩)], [], [], -3, 5⟩

/-- C1.  The claim says getBestMatchForApp scores the query against every
phonetic-expansion variant of each field, so that the query wx (initials)
and the query weixin (full reading) both match a candidate named 微信.
The source of getBestMatchForApp never consults toPinyinVariants: on the
candidate of the repository test suite both queries return no match,
although src/windows/LauncherApp.test.ts asserts they match. -/
theorem c1_noPinyinInMatcher :
    getBestMatchForApp weixinApp ("wx".toList) = none ∧
    getBestMatchForApp weixinApp ("weixin".toList) = none := by
  constructor <;> rfl

/-- C2.  The claim states the invariant that t1.size + b1.size stays at
most the capacity after every access.  Evaluating the code: with capacity
1, after the two accesses a, b the sum is already 2, and after four
distinct accesses it is 4 — the miss branch demotes the T1 head into B1
and then inserts, overfilling L1, after which no miss branch ever evicts
again. -/
theorem c2_capacityBoundViolated :
    (mkARC (V := Nat) 1).capacity = 1 ∧
    (runFrom (V := Nat) (mkARC 1) [("a", 0), ("b", 0)] 0).t1.length +
      (runFrom (V := Nat) (mkARC 1) [("a", 0), ("b", 0)] 0).b1.length = 2 ∧
    (runFrom (V := Nat) (mkARC 1) [("a", 0), ("b", 0), ("c", 0), ("d", 0)] 0).t1.length +
      (runFrom (V := Nat) (mkARC 1) [("a", 0), ("b", 0), ("c", 0), ("d", 0)] 0).b1.length
      = 4 := by
  refine ⟨rfl, rfl, rfl⟩

/-- C3 counterexample.  In the reachable capacity-1 state after the
accesses a, b, a, c, d, c (a state with |T1| = 1 and p = 1, hence
1 ≤ |T1| ≤ p), invoking the replacement step with biasTowardT1 = true
does not demote the T1 entry into B1 as the claim requires: T1 and B1
are left unchanged and the T2 entry c is evicted into B2 instead. -/
theorem c3_biasIgnoredCounterexample :
    1 ≤ c3State.t1.length ∧ (c3State.t1.length : Int) ≤ c3State.p ∧
    (replace c3State true).t1 = c3State.t1 ∧
    (replace c3State true).b1 = c3State.b1 ∧
    jsKeys c3State.t2 = ["c"] ∧
    jsKeys (replace c3State true).b2 = ["a", "c"] := by
  refine ⟨by decide, by decide, rfl, rfl, rfl, rfl⟩

/-- C4 counterexample.  In the reachable capacity-2 state after the
accesses a, b, a, the key c is absent from all four lists, |T1| + |B1| is
1 (not equal to the capacity), and the total size is 2, well short of
2 x capacity = 4.  The claim says an eviction via the replacement step
happens only when the total size has reached 2 x capacity, yet accessing
c evicts the live T2 entry a into the ghost list B2. -/
theorem c4_earlyReplacementCounterexample :
    ((c4Pre.t1.length : Int) + c4Pre.b1.length ≠ c4Pre.capacity) ∧
    ((c4Pre.t1.length : Int) + c4Pre.t2.length + c4Pre.b1.length + c4Pre.b2.length = 2) ∧
    2 * c4Pre.capacity = 4 ∧
    c4Pre.b2 = [] ∧
    jsHas c4Pre.t1 "c" = false ∧ jsHas c4Pre.t2 "c" = false ∧
    jsHas c4Pre.b1 "c" = false ∧ jsHas c4Pre.b2 "c" = false ∧
    jsKeys (access c4Pre "c" 0 3).b2 = ["a"] := by
  refine ⟨by decide, by decide, rfl, rfl, rfl, rfl, rfl, rfl, rfl⟩

/-- C6 counterexample.  After the accesses a, b, c, a, b on a capacity-5
cache, T2 holds a (last accessed at time 3) and b (last accessed at time
4).  getRecommended returns a first, so its first element is not the
most recently accessed T2 entry: the order is most-recent last, not
most-recent first as the claim states. -/
theorem c6_orderCounterexample :
    (getRecommended c6State).map (fun it => it.key) = ["a", "b"] ∧
    (getRecommended c6State).map (fun it => it.lastAccessed) = [3, 4] := by
  refine ⟨rfl, rfl⟩

/-- C8 counterexample.  Importing a malformed persisted record — the key
a present in both t1 and t2, negative access counts, negative p — is not
detected: loadARC installs the record verbatim instead of falling back
to a fresh empty cache with p = 0. -/
theorem c8_malformedAcceptedCounterexample :
    loadARC (some badData) ≠ mkARC 5 ∧
    jsHas (loadARC (some badData)).t1 "a" = true ∧
    jsHas (loadARC (some badData)).t2 "a" = true ∧
    (loadARC (some badData)).p = -3 ∧
    (jsGet (loadARC (some badData)).t1 "a").map (fun it => it.accessCount)
      = some (-5) := by
  refine ⟨by decide, rfl, rfl, rfl, rfl⟩

/-- C10.  The claim says the variants of a non-CJK text form the
singleton of the lowercased text.  The source returns the text verbatim:
for Steam every pinyin library behaviour yields the singleton Steam, not
steam, although src/utils/pinyin.test.ts expects the variants of Steam
to contain steam. -/
theorem c10_nonCjkNotLowercased :
    (∀ lib : PinyinLib, toPinyinVariants lib ("Steam".toList) = ["Steam".toList]) ∧
    toLowerStr ("Steam".toList) ≠ "Steam".toList := by
  refine ⟨fun lib => rfl, by decide⟩

/-- Replacement step as the amended claim describes it: the bias
parameter is ignored, and the least recently used T1 entry moves into B1
exactly when T1 is nonempty and |T1| exceeds p; otherwise the least
recently used T2 entry moves into B2. -/
def replaceSpec {V : Type} (σ : ARCState V) : ARCState V :=
  if 1 ≤ σ.t1.length ∧ σ.p < (σ.t1.length : Int) then
    evictT1HeadToB1 σ
  else
    evictT2HeadToB2 σ

/-- C3 amended.  The replacement step ignores biasTowardT1 entirely: for
every state and every bias value it coincides with replaceSpec, which
demotes the least recently used T1 entry into B1 exactly when |T1| ≥ 1
and |T1| > p, and otherwise demotes the least recently used T2 entry
into B2. -/
theorem c3_replaceIgnoresBias {V : Type} (σ : ARCState V) (b : Bool) :
    replace σ b = replaceSpec σ := by
  unfold replace replaceSpec
  by_cases h : 1 ≤ σ.t1.length ∧ σ.p < (σ.t1.length : Int)
  · have hC1 : 1 ≤ σ.t1.length ∧
        ((b = true ∧ σ.p < (σ.t1.length : Int)) ∨ σ.p < (σ.t1.length : Int)) :=
      ⟨h.1, Or.inr h.2⟩
    rw [if_pos hC1, if_pos h]
  · have hC1 : ¬ (1 ≤ σ.t1.length ∧
        ((b = true ∧ σ.p < (σ.t1.length : Int)) ∨ σ.p < (σ.t1.length : Int))) := by
      intro hc
      exact h ⟨hc.1, hc.2.elim (fun x => x.2) id⟩
    rw [if_neg hC1, if_neg h]

/-- Miss handling as the amended claim describes it: a fresh entry with
accessCount 1 is appended at the most recently used end of T1 after the
capacity management of the source, in which the replacement step with
biasTowardT1 = false also runs in the discard-oldest-B1-ghost branch,
and runs whenever |T1| + |B1| < capacity and the total size is at least
the capacity — the oldest B2 ghost being discarded first exactly when
the total size equals two times the capacity. -/
def missStepSpec {V : Type} (σ : ARCState V) (key : Key) (value : V) (now : Int) : ARCState V :=
  let σc :=
    if (σ.t1.length : Int) + σ.b1.length = σ.capacity then
      if (σ.t1.length : Int) < σ.capacity then
        replace (discardB1Head σ) false
      else
        evictT1HeadToB1 σ
    else if (σ.t1.length : Int) + σ.b1.length < σ.capacity ∧
        σ.capacity ≤ (σ.t1.length : Int) + σ.b1.length + (σ.t2.length + σ.b2.length) then
      replace
        (if (σ.t1.length : Int) + σ.b1.length + (σ.t2.length + σ.b2.length) = 2 * σ.capacity
          then discardB2Head σ else σ) false
    else σ
  { σc with t1 := σc.t1 ++ [(key, ⟨key, value, now, 1⟩)] }

/-- C4 amended.  On a miss the source behaves as missStepSpec: in
particular the replacement step also runs after discarding a B1 ghost,
and an eviction through the replacement step already happens whenever
|T1| + |B1| < capacity and the total size reaches the capacity — not
only at two times the capacity. -/
theorem c4_missCaseAmended {V : Type} (σ : ARCState V) (key : Key) (value : V) (now : Int)
    (h1 : jsHas σ.t1 key = false) (h2 : jsHas σ.t2 key = false)
    (h3 : jsHas σ.b1 key = false) (h4 : jsHas σ.b2 key = false) :
    access σ key value now = missStepSpec σ key value now := by
  unfold access
  rw [if_neg (by simp [h1]), if_neg (by simp [h2]), if_neg (by simp [h3]),
    if_neg (by simp [h4])]
  have ht1c : keyCount (missMgmt σ).t1 key = 0 := by
    obtain ⟨_, kt1, _, _, _, _, _⟩ := stepOk_missMgmt σ
    have := kt1 key
    have hz1 := (jsHas_false_keyCount _ _).mp h1
    omega
  have happ := jsSet_append (missMgmt σ).t1 key
    (⟨key, value, now, 1⟩ : CacheItem V) ((jsHas_false_keyCount _ _).mpr ht1c)
  unfold accessMiss
  rw [happ]
  unfold missStepSpec missMgmt
  rfl

/-- C4 witness: the amended miss-case description evaluated at the
reachable capacity-2 state c4Pre with the fresh key c. -/
theorem c4_missCaseAmended_witness :
    jsHas c4Pre.t1 "c" = false ∧ jsHas c4Pre.t2 "c" = false ∧
    jsHas c4Pre.b1 "c" = false ∧ jsHas c4Pre.b2 "c" = false ∧
    access c4Pre "c" 0 3 = missStepSpec c4Pre "c" 0 3 :=
  ⟨rfl, rfl, rfl, rfl, c4_missCaseAmended c4Pre "c" 0 3 rfl rfl rfl rfl⟩

/-- C9.  After any finite access sequence applied to a freshly
constructed ARC, every key is held by at most one of the four lists
T1, T2, B1, B2. -/
theorem c9_listDisjointness {V : Type} (cap : Int) (seq : List (Key × V)) (n : Int)
    (k : Key) : listsHolding (runFrom (mkARC cap) seq n) k ≤ 1 :=
  le_trans (listsHolding_le_keyCount4 _ k) ((inv_run cap seq n).1 k)

/-- C6 amended.  In every reachable state, getRecommended returns
exactly the T2 items in list order, and that order is strictly
increasing in lastAccessed: the most recently accessed T2 entry is the
last element, not the first. -/
theorem c6_recommendedOrderAmended {V : Type} (cap : Int) (seq : List (Key × V)) (n : Int) :
    getRecommended (runFrom (mkARC cap) seq n) = (runFrom (mkARC cap) seq n).t2.map (·.2) ∧
    (getRecommended (runFrom (mkARC cap) seq n)).Pairwise
      (fun x y => x.lastAccessed < y.lastAccessed) := by
  refine ⟨rfl, ?_⟩
  have hsort := (inv_run cap seq n).2.2
  unfold T2Sorted at hsort
  unfold getRecommended
  exact List.Pairwise.map _ (fun x y h => h) hsort

/-- C7.  For every reachable state, importing the exported record into
any cache reproduces the state exactly, hence the same hit/miss
behaviour and the same getRecommended order for every subsequent access
sequence. -/
theorem c7_exportImportRoundTrip {V : Type} (σ σ₀ : ARCState V) (h : Reachable σ) :
    importState σ₀ (exportState σ) = σ ∧
    (∀ seq n, runFrom (importState σ₀ (exportState σ)) seq n = runFrom σ seq n) ∧
    getRecommended (importState σ₀ (exportState σ)) = getRecommended σ := by
  have hK := keyCount_le_one_of_reachable h
  have heq : importState σ₀ (exportState σ) = σ := by
    have e1 : jsMapOfList σ.t1 = σ.t1 := by
      refine jsMapOfList_id σ.t1 ?_
      intro a
      have := hK a
      unfold keyCount4 at this
      omega
    have e2 : jsMapOfList σ.t2 = σ.t2 := by
      refine jsMapOfList_id σ.t2 ?_
      intro a
      have := hK a
      unfold keyCount4 at this
      omega
    have e3 : jsMapOfList σ.b1 = σ.b1 := by
      refine jsMapOfList_id σ.b1 ?_
      intro a
      have := hK a
      unfold keyCount4 at this
      omega
    have e4 : jsMapOfList σ.b2 = σ.b2 := by
      refine jsMapOfList_id σ.b2 ?_
      intro a
      have := hK a
      unfold keyCount4 at this
      omega
    cases σ with
    | mk t1 t2 b1 b2 p c =>
      unfold importState exportState
      dsimp only at e1 e2 e3 e4 ⊢
      rw [e1, e2, e3, e4]
  exact ⟨heq, fun seq n => by rw [heq], by rw [heq]⟩

/-- C7 witness: the round trip evaluated on the concrete reachable state
after two accesses on a capacity-2 cache. -/
theorem c7_exportImportRoundTrip_witness :
    importState (mkARC 5) (exportState (runFrom (V := Nat) (mkARC 2) [("a", 0), ("b", 0)] 0))
      = runFrom (V := Nat) (mkARC 2) [("a", 0), ("b", 0)] 0 :=
  (c7_exportImportRoundTrip _ (mkARC 5) ⟨2, [("a", 0), ("b", 0)], 0, rfl⟩).1

/-- State built verbatim from a persisted record, the way ARC.import
builds it: each list goes through the Map constructor, p and capacity
are taken as they are. -/
def stateOfData {V : Type} (d : ARCData V) : ARCState V :=
  ⟨jsMapOfList d.t1, jsMapOfList d.t2, jsMapOfList d.b1, jsMapOfList d.b2, d.p, d.capacity⟩

/-- C8 amended.  import performs no malformation detection: every
well-shaped record — including one with a key in several lists or with
negative counts — is installed verbatim into the cache, whatever its
previous state; loadARC returns the fresh empty capacity-5 cache with
p = 0 exactly when no stored record parses, and otherwise the fully
imported record, never a partial mixture of old and new state. -/
theorem c8_importNoValidation {V : Type} (od : Option (ARCData V)) :
    (∀ (σ₀ : ARCState V) (d : ARCData V), importState σ₀ d = stateOfData d) ∧
    ((mkARC 5 : ARCState V).p = 0 ∧ itemsOf (mkARC 5 : ARCState V) = []) ∧
    (loadARC od = mkARC 5 ∨ ∃ d, od = some d ∧ loadARC od = stateOfData d) := by
  refine ⟨fun σ₀ d => rfl, ⟨rfl, rfl⟩, ?_⟩
  cases od with
  | none => exact Or.inl rfl
  | some d => exact Or.inr ⟨d, rfl, rfl⟩

/-- C5.  getMatchForField, compared case-insensitively, returns Exact
with baseCost 0 on equality; else Prefix with baseCost 1 when the value
starts with the query; else, when a valid subsequence alignment exists,
Fuzzy with baseCost 2 plus the minimum alignment penalty (first index
plus gaps plus trailing length) over all valid alignments; and no match
when no alignment exists. -/
theorem c5_scoreFieldCharacterization (q v : List Char) :
    (toLowerStr v = toLowerStr q →
      getMatchForField q v = some ⟨0, MatchType.exact, 0⟩) ∧
    (toLowerStr v ≠ toLowerStr q →
      (toLowerStr v).take (toLowerStr q).length = toLowerStr q →
      getMatchForField q v = some ⟨1, MatchType.pfx, 1⟩) ∧
    (toLowerStr v ≠ toLowerStr q →
      (toLowerStr v).take (toLowerStr q).length ≠ toLowerStr q →
      ((∃ idxs, IsAlignment (toLowerStr q) (toLowerStr v) idxs) →
        ∃ pen, getMatchForField q v = some ⟨2 + pen, MatchType.fuzzy, 2 + pen⟩ ∧
          (∃ idxs, IsAlignment (toLowerStr q) (toLowerStr v) idxs ∧
            alignPenalty (toLowerStr v).length idxs = pen) ∧
          ∀ idxs, IsAlignment (toLowerStr q) (toLowerStr v) idxs →
            pen ≤ alignPenalty (toLowerStr v).length idxs) ∧
      ((¬ ∃ idxs, IsAlignment (toLowerStr q) (toLowerStr v) idxs) →
        getMatchForField q v = none)) := by
  refine ⟨?_, ?_, ?_⟩
  · intro h
    simp only [getMatchForField]
    rw [if_pos h]
  · intro h1 h2
    simp only [getMatchForField]
    rw [if_neg h1, if_pos h2]
  · intro h1 h2
    have hns : toLowerStr q ≠ [] := by
      intro he
      apply h2
      rw [he]
      simp
    constructor
    · rintro ⟨idxs0, hal0⟩
      have hsub : List.Sublist (toLowerStr q) (toLowerStr v) := by
        have := (alignment_sublist (toLowerStr q) (toLowerStr v) 0).mp
          ⟨idxs0, hal0, fun i _ => Nat.zero_le i⟩
        simpa using this
      refine ⟨(toLowerStr v).length - (toLowerStr q).length, ?_, ?_, ?_⟩
      · cases hq : toLowerStr q with
        | nil => exact absurd hq hns
        | cons c rest =>
          rw [hq] at hsub
          have hf := fuzzy_some_of_sublist hsub
          simp only [getMatchForField]
          rw [if_neg h1, if_neg h2, hq, hf]
          rfl
      · exact ⟨idxs0, hal0, alignPenalty_eq hal0 hns⟩
      · intro idxs2 hal2
        rw [alignPenalty_eq hal2 hns]
    · intro hnal
      have hnsub : ¬ List.Sublist (toLowerStr q) (toLowerStr v) := by
        intro hsub
        apply hnal
        obtain ⟨idxs0, hal0, _⟩ := (alignment_sublist (toLowerStr q) (toLowerStr v) 0).mpr
          (by simpa using hsub)
        exact ⟨idxs0, hal0⟩
      cases hq : toLowerStr q with
      | nil => exact absurd hq hns
      | cons c rest =>
        rw [hq] at hnsub
        have hf := fuzzy_none_of_not_sublist hnsub
        simp only [getMatchForField]
        rw [if_neg h1, if_neg h2, hq, hf]

/-- C5 witness: the scenario of the claim — query sm against the value
Steam is a fuzzy match whose penalty is the minimum alignment penalty. -/
theorem c5_scoreFieldCharacterization_witness :
    ∃ pen, getMatchForField ("sm".toList) ("Steam".toList)
        = some ⟨2 + pen, MatchType.fuzzy, 2 + pen⟩ ∧
      (∃ idxs, IsAlignment (toLowerStr ("sm".toList)) (toLowerStr ("Steam".toList)) idxs ∧
        alignPenalty (toLowerStr ("Steam".toList)).length idxs = pen) ∧
      ∀ idxs, IsAlignment (toLowerStr ("sm".toList)) (toLowerStr ("Steam".toList)) idxs →
        pen ≤ alignPenalty (toLowerStr ("Steam".toList)).length idxs := by
  have halign : ∃ idxs,
      IsAlignment (toLowerStr ("sm".toList)) (toLowerStr ("Steam".toList)) idxs := by
    refine ⟨[0, 4], rfl, ?_, ?_⟩
    · refine List.pairwise_cons.mpr ⟨?_, List.pairwise_singleton _ _⟩
      intro b hb
      have : b = 4 := by simpa using hb
      omega
    · decide
  exact ((c5_scoreFieldCharacterization ("sm".toList) ("Steam".toList)).2.2
    (by decide) (by decide)).1 halign

end Wolong
